import Mathlib

/-!
# Verification of the MobileSentrix scraper dashboard core

A shallow embedding, in Lean 4, of the change-presentation, normalization and
history-filtering functions of the repository:

* `static/js/results.js` — `resolveChangeValue`, `formatDelta`,
  `buildDifferenceBadge`, `describeDifference`, `getBaselineLabel`,
  `getBaselineDescription`, `sortChanges`, `normalizeCategoryUrl`;
* `static/js/main.js` — `normaliseStockValue`, `parseMoney` and the
  results-table row mapping inside `render`;
* the history page script — `normalizeHistoryEntry`, `applyFilters`.

JavaScript numbers are idealized as exact rationals (`ℚ`); a non-finite
number (NaN or ±Infinity) is modelled explicitly.  JavaScript strings are
Lean `String`s; DOM construction is abstracted into small inductive values
carrying exactly the data the source writes into the DOM nodes.
-/

/-! ## JavaScript string primitives -/

/-- The ECMAScript whitespace set (the characters removed by `String.trim`
and matched by the regex class `\s`): space, tab, LF, VT, FF, CR, NBSP,
Ogham space, the U+2000–U+200A range, the line/paragraph separators,
narrow no-break space, medium mathematical space, ideographic space and
the BOM. -/
def jsWhitespace (c : Char) : Bool :=
  c.val = 32 || c.val = 9 || c.val = 10 || c.val = 11 || c.val = 12 ||
  c.val = 13 || c.val = 0xa0 || c.val = 0x1680 ||
  (0x2000 ≤ c.val && c.val ≤ 0x200a) ||
  c.val = 0x2028 || c.val = 0x2029 || c.val = 0x202f || c.val = 0x205f ||
  c.val = 0x3000 || c.val = 0xfeff

/-- `String.prototype.trim`: remove leading and trailing whitespace. -/
def jsTrimList (cs : List Char) : List Char :=
  ((cs.dropWhile jsWhitespace).reverse.dropWhile jsWhitespace).reverse

/-- `String.prototype.trim` on Lean strings. -/
def jsTrim (s : String) : String :=
  ⟨jsTrimList s.data⟩

/-- `String.prototype.toLowerCase` (ASCII-faithful model). -/
def jsToLower (s : String) : String :=
  ⟨s.data.map Char.toLower⟩

/-- `needle` occurs as a contiguous sublist of `hay`. -/
def listContainsSub (needle : List Char) : List Char → Bool
  | [] => needle.isEmpty
  | c :: rest => needle.isPrefixOf (c :: rest) || listContainsSub needle rest

/-- `hay.includes(needle)`: substring containment. -/
def jsIncludes (hay needle : String) : Bool :=
  listContainsSub needle.data hay.data

/-- `s.endsWith(t)` (used to model the regex anchors `yes$`, `available$`). -/
def jsEndsWith (s t : String) : Bool :=
  t.data.isSuffixOf s.data

/-! ## JavaScript values and number conversion -/

/-- A JavaScript field value as it appears in a change/history record:
`null`, a finite number (exact-rational idealization), a non-finite number
(NaN or ±Infinity, which the code only ever probes through
`Number.isFinite`), or a string. -/
inductive JVal where
  | vnull : JVal
  | vnum : ℚ → JVal
  | vnan : JVal
  | vstr : String → JVal
deriving DecidableEq, Repr

/-- JavaScript strict inequality `a !== b` on `JVal`s (note `NaN !== NaN`). -/
def jsStrictNe (a b : JVal) : Bool :=
  match a, b with
  | JVal.vnan, JVal.vnan => true
  | x, y => x ≠ y

/-- Digit run of a character list. -/
def digitsToNat (ds : List Char) : ℕ :=
  ds.foldl (fun a c => a * 10 + (c.toNat - '0'.toNat)) 0

/-- Parse an unsigned decimal mantissa (`digits`, `digits.digits`,
`digits.`, `.digits`) off the front of a character list; fails when no
digit is present. -/
def parseDecMantissa (cs : List Char) : Option (ℚ × List Char) :=
  let ip := cs.takeWhile Char.isDigit
  let r1 := cs.dropWhile Char.isDigit
  match r1 with
  | c0 :: r2 =>
    if c0 = '.' then
      let fp := r2.takeWhile Char.isDigit
      let r3 := r2.dropWhile Char.isDigit
      if ip = [] ∧ fp = [] then none
      else some ((digitsToNat ip : ℚ) + (digitsToNat fp : ℚ) / (10 : ℚ) ^ fp.length, r3)
    else if ip = [] then none else some ((digitsToNat ip : ℚ), c0 :: r2)
  | [] => if ip = [] then none else some ((digitsToNat ip : ℚ), [])

/-- Parse an optional exponent suffix `e`/`E` with optional sign; when an
`e` is present it must be followed by at least one digit (else the whole
literal is invalid, as in `Number("1e")`). -/
def parseNumExponent (cs : List Char) : Option (ℤ × List Char) :=
  match cs with
  | c0 :: r =>
    if c0 = 'e' ∨ c0 = 'E' then
      let (sgn, r1) : ℤ × List Char :=
        match r with
        | c1 :: r2 =>
          if c1 = '+' then (1, r2)
          else if c1 = '-' then (-1, r2)
          else (1, c1 :: r2)
        | [] => (1, [])
      let ds := r1.takeWhile Char.isDigit
      if ds = [] then none
      else some (sgn * (digitsToNat ds : ℤ), r1.dropWhile Char.isDigit)
    else some (0, c0 :: r)
  | [] => some (0, [])

/-- `Number(string)`: `none` models a non-finite result (NaN or ±Infinity),
`some q` a finite value.  The empty / all-whitespace string converts to `0`;
the whole (trimmed) string must be a decimal literal.  Hexadecimal, octal
and binary literals are outside this model (treated as NaN). -/
def jsStrToNumber (s : String) : Option ℚ :=
  let t := (jsTrim s).data
  if t = [] then some 0
  else
    let (sgn, t1) : ℚ × List Char :=
      match t with
      | c0 :: r =>
        if c0 = '+' then (1, r)
        else if c0 = '-' then (-1, r)
        else (1, c0 :: r)
      | [] => (1, [])
    if t1 = "Infinity".data then none
    else
      match parseDecMantissa t1 with
      | none => none
      | some (m, r) =>
        match parseNumExponent r with
        | none => none
        | some (e, r2) => if r2 = [] then some (sgn * m * (10 : ℚ) ^ e) else none

/-- `Number(x)` on an optional field value (`none` = the field is absent,
i.e. `undefined`, whose conversion is NaN; `null` converts to `0`).  The
result `none` means "not a finite number" (the code only consumes these
conversions through `Number.isFinite`). -/
def jsToNumber : Option JVal → Option ℚ
  | none => none
  | some JVal.vnull => some 0
  | some (JVal.vnum q) => some q
  | some JVal.vnan => none
  | some (JVal.vstr s) => jsStrToNumber s

/-- `String(x)` / `x.toString()` on a field value.  Exact for strings and
for integral numbers; non-integral numbers use Lean's rational rendering as
an abstraction of JavaScript float printing (no claim depends on it). -/
def jsValToString : JVal → String
  | JVal.vnull => "null"
  | JVal.vnan => "NaN"
  | JVal.vnum q => toString q
  | JVal.vstr s => s

/-- `a ?? b` on field values: `null`/`undefined` fall through. -/
def jsCoalesce (a : Option JVal) (b : JVal) : JVal :=
  match a with
  | none => b
  | some JVal.vnull => b
  | some v => v

/-! ## Change records and the results view helpers (`static/js/results.js`) -/

/-- Which side of a change is being resolved. -/
inductive Side where
  | old : Side
  | new : Side
deriving DecidableEq, Repr

/-- The direction class the view derives for a delta or stock badge. -/
inductive Dir where
  | up : Dir
  | down : Dir
  | flat : Dir
deriving DecidableEq, Repr

/-- A change record as consumed by the results view.  `none` fields model
`undefined`.  `direction` models a hypothetical stored direction field: the
view helpers below never read it. -/
structure ChangeRecord where
  change_type : Option String := none
  is_baseline : Bool := false
  difference : Option JVal := none
  old_value : Option JVal := none
  new_value : Option JVal := none
  old_value_raw : Option JVal := none
  new_value_raw : Option JVal := none
  title : Option String := none
  direction : Option String := none
deriving DecidableEq, Repr

/-- `(change.change_type || '').toString().toLowerCase()`. -/
def changeTypeLower (c : ChangeRecord) : String :=
  jsToLower (c.change_type.getD "")

/-- The placeholder strings `hasMeaningfulValueText` rejects. -/
def placeholderValues : List String :=
  ["-", "—", "n/a", "na", "none", "null", "tbd", "pending"]

/-- `hasMeaningfulValueText` of `results.js` (the `value == null` guard is
handled by the caller, which only passes present values). -/
def hasMeaningfulValueText (s : String) : Bool :=
  let trimmed := jsTrim s
  if trimmed = "" then false
  else !(placeholderValues.contains (jsToLower trimmed))

/-- The result record of `resolveChangeValue`. -/
structure Resolved where
  text : String
  isMissing : Bool
  numeric : Option ℚ
deriving DecidableEq, Repr

/-- `candidate.replace(/[^0-9.-]/g, '')`. -/
def sanitizeMoneyChars (s : String) : String :=
  ⟨s.data.filter (fun c => c.isDigit || c = '.' || c = '-')⟩

/-- Model of `formatCurrency` for a finite amount: `Intl` USD rendering is
abstracted to a dollar sign plus the rational's rendering; always
non-empty, which is the only property the claims use. -/
def currencyText (q : ℚ) : String :=
  "$" ++ toString q

/-- First finite `Number(sanitized)` among the candidate strings
(the `for … of normalizedStrings` loop in `resolveChangeValue`). -/
def firstParsedMoney : List String → Option ℚ
  | [] => none
  | cand :: rest =>
    let sanitized := sanitizeMoneyChars cand
    if sanitized = "" then firstParsedMoney rest
    else
      match jsStrToNumber sanitized with
      | some p => some p
      | none => firstParsedMoney rest

/-- `resolveChangeValue(change, side)` of `results.js`. -/
def resolveChangeValue (c : ChangeRecord) (side : Side) : Resolved :=
  let ty := changeTypeLower c
  let rawField := match side with
    | Side.old => c.old_value_raw
    | Side.new => c.new_value_raw
  let structuredField := match side with
    | Side.old => c.old_value
    | Side.new => c.new_value
  let stringCandidates : List JVal :=
    (match rawField with
     | some v => if v = JVal.vnull then [] else [v]
     | none => []) ++
    (match structuredField with
     | some v =>
       if v = JVal.vnull then []
       else
         (match rawField with
          | some r => if jsStrictNe v r then [v] else []
          | none => [v])
     | none => [])
  let normalizedStrings :=
    (stringCandidates.map (fun v => jsTrim (jsValToString v))).filter
      hasMeaningfulValueText
  let numericStructured : Option ℚ :=
    match structuredField with
    | some v =>
      if v = JVal.vnull then none
      else if jsTrim (jsValToString v) ≠ "" then
        match jsToNumber (some v) with
        | some p => some p
        | none => none
      else none
    | none => none
  let numeric : Option ℚ :=
    match numericStructured with
    | some q => some q
    | none => if ty = "price" then firstParsedMoney normalizedStrings else none
  let text : String :=
    if ty = "price" then
      match numeric with
      | some q => currencyText q
      | none => normalizedStrings.headD ""
    else normalizedStrings.headD ""
  { text := text, isMissing := text = "", numeric := numeric }

/-- The data `formatDelta` writes into its result object: the signed
numeric delta and the direction class (the rendered text is the sign
prefix plus the formatted absolute amount). -/
structure DeltaInfo where
  amount : ℚ
  direction : Dir
deriving DecidableEq, Repr

/-- `formatDelta(change)` of `results.js` (lines 326–357). -/
def formatDelta (c : ChangeRecord) : Option DeltaInfo :=
  let ty := changeTypeLower c
  if ty ≠ "price" then none
  else
    let numeric : Option ℚ :=
      match jsToNumber c.difference with
      | some q => some q
      | none =>
        match (resolveChangeValue c Side.new).numeric,
              (resolveChangeValue c Side.old).numeric with
        | some n, some o => some (n - o)
        | _, _ => none
    match numeric with
    | none => none
    | some q =>
      if |q| < 1 / 1000000000 then none
      else some { amount := q, direction := if 0 < q then Dir.up else Dir.down }

/-- `getBaselineLabel(change)` of `results.js`. -/
def getBaselineLabel (c : ChangeRecord) : String :=
  match changeTypeLower c with
  | "price" => "New Price"
  | "stock" => "New Stock"
  | "description" => "New Description"
  | "new" => "New Product"
  | _ => "New Data"

/-- `getBaselineDescription(change)` of `results.js`. -/
def getBaselineDescription (c : ChangeRecord) : String :=
  match changeTypeLower c with
  | "price" => "First price snapshot captured for this product."
  | "stock" => "Initial stock status captured for this product."
  | "description" => "Initial description captured for this product."
  | "new" => "Product discovered during the most recent run."
  | _ => "Initial data captured for this product."

/-- The badge element `buildDifferenceBadge` constructs, reduced to the
data written into it. -/
inductive Badge where
  | baseline (label description : String) : Badge
  | price (delta : ℚ) (direction : Dir) : Badge
  | stock (label : String) (direction : Dir) (rawOld rawNew : String) : Badge
  | descriptionUpdated : Badge
deriving DecidableEq, Repr

/-- `tokens.some((token) => value.includes(token))`. -/
def containsAnyOf (value : String) (tokens : List String) : Bool :=
  tokens.any (fun t => jsIncludes value t)

/-- `buildDifferenceBadge(change)` of `results.js` (lines 2507–2606). -/
def buildDifferenceBadge (c : ChangeRecord) : Option Badge :=
  match c.change_type with
  | none => none
  | some ct =>
    if ct = "" then none
    else if c.is_baseline then
      some (Badge.baseline (getBaselineLabel c) (getBaselineDescription c))
    else
      let ty := jsToLower ct
      if ty = "price" then
        let oldR := resolveChangeValue c Side.old
        let newR := resolveChangeValue c Side.new
        let difference : Option ℚ :=
          match jsToNumber c.difference with
          | some q => some q
          | none =>
            match newR.numeric, oldR.numeric with
            | some n, some o => some (n - o)
            | _, _ => none
        match difference with
        | none => none
        | some d =>
          if d = 0 then none
          else some (Badge.price d (if 0 < d then Dir.up else Dir.down))
      else if ty = "stock" then
        let rawOld := jsValToString (jsCoalesce c.old_value_raw
          (jsCoalesce c.old_value (JVal.vstr "")))
        let rawNew := jsValToString (jsCoalesce c.new_value_raw
          (jsCoalesce c.new_value (JVal.vstr "")))
        if rawOld = "" ∧ rawNew = "" then none
        else
          let oldLower := jsToLower rawOld
          let newLower := jsToLower rawNew
          if containsAnyOf newLower ["in stock", "instock", "available", "ready"] then
            some (Badge.stock "Restocked" Dir.up rawOld rawNew)
          else if containsAnyOf newLower ["out of stock", "sold out", "unavailable", "oos"] then
            some (Badge.stock "Out of Stock" Dir.down rawOld rawNew)
          else if containsAnyOf newLower ["backorder", "pre-order", "preorder"] then
            some (Badge.stock "Backorder" Dir.flat rawOld rawNew)
          else if newLower = "" ∧ oldLower ≠ "" then
            some (Badge.stock "Stock Removed" Dir.down rawOld rawNew)
          else if newLower ≠ "" ∧ oldLower = "" then
            some (Badge.stock "Stock Added" Dir.up rawOld rawNew)
          else
            some (Badge.stock "Stock Updated" Dir.flat rawOld rawNew)
      else if ty = "description" then
        some Badge.descriptionUpdated
      else none

/-- The `textContent` of a badge built by `buildDifferenceBadge`. -/
def badgeText : Badge → String
  | Badge.baseline label _ => label
  | Badge.price d _ => (if 0 < d then "+" else "-") ++ currencyText |d|
  | Badge.stock label _ _ _ => label
  | Badge.descriptionUpdated => "Description Updated"

/-- `describeDifference(change)` of `results.js` (lines 2806–2818). -/
def describeDifference (c : ChangeRecord) : Option String :=
  if c.is_baseline then some "First snapshot"
  else
    match buildDifferenceBadge c with
    | none => none
    | some b => if badgeText b = "" then none else some (badgeText b)

/-! ## Stock status normalization (`static/js/main.js`, lines 151–195) -/

/-- The keys of the `STOCK_LABELS` table. -/
def stockLabelKeys : List String :=
  ["in_stock", "limited", "back_order", "preorder", "pre_order",
   "out_of_stock", "sold_out", "discontinued", "unavailable", "unknown"]

/-- Collapse runs of `'_'` into a single `'_'` (the effect of replacing
maximal non-letter runs, once every non-letter has been mapped to `'_'`). -/
def collapseUnderscores : List Char → List Char
  | [] => []
  | [c] => [c]
  | a :: b :: rest =>
    if a = '_' ∧ b = '_' then collapseUnderscores (b :: rest)
    else a :: collapseUnderscores (b :: rest)

/-- `lowered.replace(/[^a-z]+/g, '_')`. -/
def canonicalSlug (s : String) : String :=
  ⟨collapseUnderscores (s.data.map
      (fun c => if 'a' ≤ c ∧ c ≤ 'z' then c else '_'))⟩

/-- `value.includes(a + sep + b)` for an optional single separator drawn
from `-` or the whitespace class — the model of the regex fragments
`back[-\s]?order` and `pre[-\s]?order`. -/
def containsWithOptSep (s a b : String) : Bool :=
  jsIncludes s (a ++ b) ||
  (('-' :: [' ', '\t', '\n', '\r', '\x0b', '\x0c']).any
      (fun sep => jsIncludes s (a ++ ⟨[sep]⟩ ++ b)) ||
    ([(0xa0 : ℕ), 0x1680, 0x2000, 0x2001, 0x2002, 0x2003, 0x2004, 0x2005,
      0x2006, 0x2007, 0x2008, 0x2009, 0x200a, 0x2028, 0x2029, 0x202f,
      0x205f, 0x3000, 0xfeff].any
      (fun n => jsIncludes s (a ++ ⟨[Char.ofNat n]⟩ ++ b))))

/-- Test of `/(not available|no stock|sold out|unavailable|out of stock|out-of-stock|outofstock)/` on the lowered string. -/
def outOfStockTest (s : String) : Bool :=
  containsAnyOf s ["not available", "no stock", "sold out", "unavailable",
    "out of stock", "out-of-stock", "outofstock"]

/-- Test of `/(back[-\s]?order|awaiting stock|ships in|special order|backordered|backorder)/`. -/
def backOrderTest (s : String) : Bool :=
  containsWithOptSep s "back" "order" ||
  containsAnyOf s ["awaiting stock", "ships in", "special order",
    "backordered", "backorder"]

/-- Test of `/(pre[-\s]?order|coming soon|preorder)/`. -/
def preorderTest (s : String) : Bool :=
  containsWithOptSep s "pre" "order" ||
  containsAnyOf s ["coming soon", "preorder"]

/-- Test of `/(limited|low stock|few left|almost gone|only \d+|limitedavailability)/`
(`only \d+` matches exactly when `"only "` followed by some digit occurs). -/
def limitedTest (s : String) : Bool :=
  containsAnyOf s ["limited", "low stock", "few left", "almost gone",
    "limitedavailability"] ||
  (['0', '1', '2', '3', '4', '5', '6', '7', '8', '9'].any
    (fun d => jsIncludes s ("only " ++ ⟨[d]⟩)))

/-- Test of `/(discontinued|no longer available|retired)/`. -/
def discontinuedTest (s : String) : Bool :=
  containsAnyOf s ["discontinued", "no longer available", "retired"]

/-- Test of `/(in stock|available now|ready to ship|ships today|instock|yes$|available$)/`. -/
def inStockTest (s : String) : Bool :=
  containsAnyOf s ["in stock", "available now", "ready to ship",
    "ships today", "instock"] ||
  jsEndsWith s "yes" || jsEndsWith s "available"

/-- The `STOCK_KEYWORDS` list, in source order: each entry pairs the regex
test with the category value it yields. -/
def STOCK_KEYWORDS : List ((String → Bool) × String) :=
  [(outOfStockTest, "out_of_stock"),
   (backOrderTest, "back_order"),
   (preorderTest, "preorder"),
   (limitedTest, "limited"),
   (discontinuedTest, "discontinued"),
   (inStockTest, "in_stock")]

/-- `normaliseStockValue(raw)` of `main.js` (`none` models `null`/`undefined`;
other non-string raw values are outside the model). -/
def normaliseStockValue (raw : Option String) : String :=
  match raw with
  | none => "unknown"
  | some s =>
    let str := jsTrim s
    if str = "" then "unknown"
    else
      let lowered := jsToLower str
      let canonical := canonicalSlug lowered
      if stockLabelKeys.contains canonical then canonical
      else
        match STOCK_KEYWORDS.find? (fun kw => kw.1 lowered) with
        | some kw => kw.2
        | none => if canonical ≠ "" then canonical else "unknown"

/-! ## Price parsing (`static/js/main.js`, `parseMoney`, lines 331–336)

The regex `/([0-9]{1,3}(?:,[0-9]{3})*(?:\.[0-9]{2})|[0-9]+(?:\.[0-9]{2})?)/`
is embedded as a hand-rolled backtracking matcher with JavaScript
semantics: positions are scanned left to right, the first alternative is
preferred, quantifiers are greedy with backtracking. -/

/-- Take exactly `k` leading digits, or fail. -/
def takeDigitsExact (k : ℕ) (cs : List Char) : Option (List Char × List Char) :=
  if (cs.take k).length = k ∧ (cs.take k).all Char.isDigit then
    some (cs.take k, cs.drop k)
  else none

/-- Match `\.[0-9]{2}` at the current position, appending to the
accumulated match. -/
def moneyDot (acc rest : List Char) : Option (List Char) :=
  match rest with
  | c0 :: a :: b :: _ =>
    if c0 = '.' ∧ a.isDigit ∧ b.isDigit then some (acc ++ ['.', a, b])
    else none
  | _ => none

/-- Greedy `(?:,[0-9]{3})*` followed by the mandatory `\.[0-9]{2}` of the
first alternative, with backtracking: prefer consuming another `,ddd`
group; on failure of the continuation, try the dot at this point. -/
def moneyGroupsDot (acc : List Char) : List Char → Option (List Char)
  | c0 :: a :: b :: c :: r =>
    if c0 = ',' ∧ a.isDigit ∧ b.isDigit ∧ c.isDigit then
      (moneyGroupsDot (acc ++ [',', a, b, c]) r) <|>
        moneyDot acc (c0 :: a :: b :: c :: r)
    else moneyDot acc (c0 :: a :: b :: c :: r)
  | rest => moneyDot acc rest

/-- First alternative `[0-9]{1,3}(?:,[0-9]{3})*(?:\.[0-9]{2})`: the greedy
`{1,3}` tries three digits, then two, then one. -/
def moneyAlt1 (cs : List Char) : Option (List Char) :=
  ((takeDigitsExact 3 cs).bind fun p => moneyGroupsDot p.1 p.2) <|>
  ((takeDigitsExact 2 cs).bind fun p => moneyGroupsDot p.1 p.2) <|>
  ((takeDigitsExact 1 cs).bind fun p => moneyGroupsDot p.1 p.2)

/-- Second alternative `[0-9]+(?:\.[0-9]{2})?`: a maximal digit run,
optionally extended by `.dd`. -/
def moneyAlt2 (cs : List Char) : Option (List Char) :=
  let ds := cs.takeWhile Char.isDigit
  if ds = [] then none
  else
    match cs.drop ds.length with
    | c0 :: a :: b :: _ =>
      if c0 = '.' ∧ a.isDigit ∧ b.isDigit then some (ds ++ ['.', a, b])
      else some ds
    | _ => some ds

/-- `String.prototype.match`: the leftmost match, with the first
alternative preferred at each position. -/
def moneyFirstMatch : List Char → Option (List Char)
  | [] => none
  | c :: rest => (moneyAlt1 (c :: rest) <|> moneyAlt2 (c :: rest)) <|>
      moneyFirstMatch rest

/-- `parseFloat(string)`: longest numeric-literal prefix of the trimmed
string; NaN (`none`) when no digit can be read. -/
def jsParseFloat (s : String) : Option ℚ :=
  let t := (jsTrim s).data
  let (sgn, t1) : ℚ × List Char :=
    match t with
    | c0 :: r =>
      if c0 = '+' then (1, r)
      else if c0 = '-' then (-1, r)
      else (1, c0 :: r)
    | [] => (1, [])
  match parseDecMantissa t1 with
  | none => none
  | some (m, r) =>
    match r with
    | c0 :: r2 =>
      if c0 = 'e' ∨ c0 = 'E' then
        match parseNumExponent (c0 :: r2) with
        | some (e, _) => some (sgn * m * (10 : ℚ) ^ e)
        | none => some (sgn * m)
      else some (sgn * m)
    | [] => some (sgn * m)

/-- `parseMoney(maybe)` of `main.js` (string inputs; the falsy guard
rejects the empty string). -/
def parseMoney (s : String) : Option ℚ :=
  if s = "" then none
  else
    match moneyFirstMatch s.data with
    | none => none
    | some m => jsParseFloat ⟨m.filter (fun c => c ≠ ',')⟩

/-! ## The results-table row mapping (`static/js/main.js`, `render`,
lines 708–720) -/

/-- `a || b` on JavaScript strings (empty is falsy). -/
def jsOrString (a b : String) : String :=
  if a ≠ "" then a else b

/-- The raw scraped item fields the row mapping reads (absent fields are
`none`, which `||` treats like the empty string). -/
structure RawItem where
  original_formatted : Option String := none
  price_text : Option String := none
  discounted_formatted : Option String := none
deriving DecidableEq, Repr

/-- `it.original_formatted || it.price_text || ''`. -/
def rowOriginal (it : RawItem) : String :=
  jsOrString (it.original_formatted.getD "") (jsOrString (it.price_text.getD "") "")

/-- `it.discounted_formatted || ''`. -/
def rowFinalRaw (it : RawItem) : String :=
  jsOrString (it.discounted_formatted.getD "") ""

/-- `originalNum = parseMoney(original)`. -/
def rowOriginalNum (it : RawItem) : Option ℚ :=
  parseMoney (rowOriginal it)

/-- `finalNum = parseMoney(finalRaw || original)`. -/
def rowFinalNum (it : RawItem) : Option ℚ :=
  parseMoney (jsOrString (rowFinalRaw it) (rowOriginal it))

/-- `+(x).toFixed(2)`: round to two decimals, ties toward the larger
value (float representation artifacts idealized away). -/
def round2 (q : ℚ) : ℚ :=
  (⌊q * 100 + 1 / 2⌋ : ℚ) / 100

/-- The `percentOffActual` column of the row mapping. -/
def percentOffActual (it : RawItem) : Option ℚ :=
  match rowOriginalNum it, rowFinalNum it with
  | some o, some f => if 0 < o then some (round2 ((o - f) / o * 100)) else none
  | some _, none => none
  | none, _ => none

/-! ## Sorting (`static/js/results.js`, `sortChanges`, lines 1632–1652) -/

/-- The comparator passed to `items.sort` in title mode, parameterized by
the environment collation `lc` (`titleA.localeCompare(titleB, undefined,
{sensitivity: base})` on two non-empty lowercased titles). -/
def titleComparator (lc : String → String → ℤ) (a b : ChangeRecord) : ℤ :=
  let titleA := jsToLower (a.title.getD "")
  let titleB := jsToLower (b.title.getD "")
  if titleA ≠ "" ∧ titleB ≠ "" then lc titleA titleB
  else if titleA ≠ "" then -1
  else if titleB ≠ "" then 1
  else 0

/-- `sortChanges(items)` of `results.js`, with the sort mode passed
explicitly and `Array.prototype.sort` modelled as a stable merge sort
(JavaScript sorts are stable). -/
def sortChanges (lc : String → String → ℤ) (sortMode : String)
    (items : List ChangeRecord) : List ChangeRecord :=
  if items.isEmpty then []
  else if sortMode = "title" then
    items.mergeSort (fun a b => titleComparator lc a b ≤ 0)
  else items

/-! ## Category URL canonicalization (`static/js/results.js`,
`normalizeCategoryUrl`, lines 1031–1036) -/

/-- `url.replace(/\/+$/, '')`: strip trailing slashes. -/
def stripTrailingSlashes (s : String) : String :=
  ⟨(s.data.reverse.dropWhile (fun c => c = '/')).reverse⟩

/-- `normalizeCategoryUrl(url)` of `results.js` (string inputs; the falsy
guard returns the empty string unchanged). -/
def normalizeCategoryUrl (url : String) : String :=
  if url = "" then ""
  else jsToLower (stripTrailingSlashes (jsTrim url))

/-! ## History sessions (the history page script, `normalizeHistoryEntry`
lines 861–938 and `applyFilters` lines 1023–1071) -/

/-- An element of a raw history entry's `items` array; `none` models an
array element that is not an object (which the search-index loop skips). -/
structure HistItem where
  title : Option String := none
  site : Option String := none
deriving DecidableEq, Repr

/-- A raw history entry, restricted to the fields `normalizeHistoryEntry`
reads.  `timestamp_ms` stands for the already-parsed timestamp, since
`new Date(...)` parsing is environment-dependent (`none` = invalid or
absent, exactly the cases where the source sets `timestamp_obj = null`). -/
structure RawHistoryEntry where
  id : Option String := none
  timestamp_ms : Option ℤ := none
  urls : List String := []
  items : List (Option HistItem) := []
  items_count : Option JVal := none
  rules_percent_off : Option JVal := none
  rules_absolute_off : Option JVal := none
deriving Repr

/-- Model of `new URL(url).hostname` for common absolute URLs of the form
`scheme "://" [userinfo "@"] host [":" port] ["/" …]`; the host is
lower-cased as WHATWG prescribes.  Anything without a `"://"` or with an
empty scheme or host is a parse failure (`none`), modelling the `throw`. -/
def jsUrlHost (url : String) : Option String :=
  let cs := url.data
  match (List.range (cs.length)).find?
      (fun i => ("://".data).isPrefixOf (cs.drop i)) with
  | none => none
  | some i =>
    let scheme := cs.take i
    if scheme = [] ∨ ¬(scheme.all Char.isAlpha) then none
    else
      let after := cs.drop (i + 3)
      let authority := after.takeWhile (fun c => c ≠ '/' ∧ c ≠ '?' ∧ c ≠ '#')
      let hostPort :=
        if authority.contains '@' then
          (authority.reverse.takeWhile (fun c => c ≠ '@')).reverse
        else authority
      let host := hostPort.takeWhile (fun c => c ≠ ':')
      if host = [] then none
      else some (jsToLower ⟨host⟩)

/-- `hostname.replace(/^www\./, '')`. -/
def stripWwwDot (h : String) : String :=
  if h.startsWith "www." then h.drop 4 else h

/-- The host-name candidate one `urls.forEach` iteration adds to the set:
the stripped hostname when the URL parses (skipped when empty), else the
raw URL itself (skipped when empty). -/
def hostCandidate (url : String) : Option String :=
  match jsUrlHost url with
  | some h => if stripWwwDot h ≠ "" then some (stripWwwDot h) else none
  | none => if url ≠ "" then some url else none

/-- First-occurrence deduplication, the iteration order of a JavaScript
`Set` filled by insertion. -/
def dedupFirst (l : List String) : List String :=
  l.foldl (fun acc h => if acc.contains h then acc else acc ++ [h]) []

/-- `safeEntry.urls.filter(Boolean)` (string elements; empty is falsy). -/
def filteredUrls (e : RawHistoryEntry) : List String :=
  e.urls.filter (fun u => u ≠ "")

/-- The deduplicated host list of an entry. -/
def entryHostList (e : RawHistoryEntry) : List String :=
  dedupFirst ((filteredUrls e).filterMap hostCandidate)

/-- `Number.isFinite(Number(items_count)) ? Number(items_count) :
items.length`. -/
def itemsCountOf (e : RawHistoryEntry) : ℚ :=
  match jsToNumber e.items_count with
  | some q => q
  | none => (e.items.length : ℚ)

/-- `Number(rawRules.percent_off) || 0` (a non-finite conversion is
modelled as 0; the code's `|| 0` maps NaN — and nothing else the data can
produce — to 0). -/
def ruleNumber (v : Option JVal) : ℚ :=
  (jsToNumber v).getD 0

/-- `String(q)` for the numeric search parts (exact for integers). -/
def numPartString (q : ℚ) : String :=
  toString q

/-- The `searchParts` array of `normalizeHistoryEntry`: id, items count,
URLs, host names, discount rules, then title and site of each of the
first 25 items that is an object and has the field non-empty. -/
def searchParts (e : RawHistoryEntry) : List String :=
  [e.id.getD "",
   numPartString (itemsCountOf e),
   String.intercalate " " (filteredUrls e),
   String.intercalate " " (entryHostList e),
   numPartString (ruleNumber e.rules_percent_off),
   numPartString (ruleNumber e.rules_absolute_off)] ++
  (e.items.take 25).foldr
    (fun it acc =>
      match it with
      | none => acc
      | some item =>
        (match item.title with
         | some t => if t ≠ "" then [t] else []
         | none => []) ++
        (match item.site with
         | some st => if st ≠ "" then [st] else []
         | none => []) ++ acc)
    []

/-- `searchParts.map(p => String(p).toLowerCase()).join(' | ')`. -/
def searchIndexOf (e : RawHistoryEntry) : String :=
  String.intercalate " | " ((searchParts e).map jsToLower)

/-- The normalized history entry, restricted to the fields `applyFilters`
reads (`search_index`, `timestamp_obj`, `items_count`, `host_list`). -/
structure HistoryEntry where
  search_index : String
  timestamp_ms : Option ℤ
  items_count : ℚ
  host_list : List String
deriving DecidableEq, Repr

/-- `normalizeHistoryEntry(entry)`, reduced to the fields the filter
reads. -/
def normalizeHistoryEntry (e : RawHistoryEntry) : HistoryEntry :=
  { search_index := searchIndexOf e
    timestamp_ms := e.timestamp_ms
    items_count := itemsCountOf e
    host_list := entryHostList e }

/-- The history filter controls.  `search` is stored trimmed+lowercased by
the input handler; `startDate`/`endDate` are the parsed date bounds in
epoch milliseconds; `minItems` comes from the slider; `site` from the
select. -/
structure FilterState where
  search : String := ""
  startDate : Option ℤ := none
  endDate : Option ℤ := none
  minItems : ℚ := 0
  site : String := ""
deriving DecidableEq, Repr

/-- The predicate one `historyData.filter` iteration evaluates inside
`applyFilters` (sequential early `return false`s). -/
def historyEntryPasses (fs : FilterState) (e : HistoryEntry) : Bool :=
  let effectiveSearch := jsTrim fs.search
  if effectiveSearch ≠ "" ∧ ¬(jsIncludes e.search_index effectiveSearch) then
    false
  else if (match fs.startDate with
           | some st =>
             (match e.timestamp_ms with
              | none => true
              | some t => t < st)
           | none => false) then false
  else if (match fs.endDate with
           | some en =>
             (match e.timestamp_ms with
              | none => true
              | some t => en < t)
           | none => false) then false
  else if fs.minItems ≠ 0 ∧ e.items_count < fs.minItems then false
  else if fs.site ≠ "" ∧ ¬(e.host_list.contains fs.site) then false
  else true

/-- `applyFilters` of the history page: `filteredHistory =
historyData.filter(entry => …)`. -/
def applyFilters (fs : FilterState) (historyData : List HistoryEntry) :
    List HistoryEntry :=
  historyData.filter (historyEntryPasses fs)

/-- The list-level form of `stripTrailingSlashes`. -/
def stripSlashList (cs : List Char) : List Char :=
  (cs.reverse.dropWhile (fun c => c = '/')).reverse

/-- Whether the last character of a string is ECMAScript whitespace. -/
def lastIsWhitespace (s : String) : Bool :=
  match s.data.getLast? with
  | some c => jsWhitespace c
  | none => false

/-- A string of `m` trailing slashes. -/
def slashes (m : ℕ) : String :=
  ⟨List.replicate m '/'⟩

/-- The thousands-grouped tail of a currency literal: each group rendered
as `,ddd`. -/
def groupsChars (gs : List (List Char)) : List Char :=
  gs.foldr (fun g acc => ',' :: g ++ acc) []

/-! ## The delta described by the specification -/

/-- The numeric price delta the specification describes: the stored
`difference` when it converts to a finite number, otherwise the resolved
new value minus the resolved old value (when both resolve). -/
def claimedDelta (c : ChangeRecord) : Option ℚ :=
  match jsToNumber c.difference with
  | some q => some q
  | none =>
    match (resolveChangeValue c Side.new).numeric,
          (resolveChangeValue c Side.old).numeric with
    | some n, some o => some (n - o)
    | _, _ => none

/-- `formatDelta` restated through `claimedDelta`. -/
theorem formatDelta_eq (c : ChangeRecord) :
    formatDelta c =
      (if changeTypeLower c ≠ "price" then none
       else
         match claimedDelta c with
         | none => none
         | some q =>
           if |q| < 1 / 1000000000 then none
           else some { amount := q, direction := if 0 < q then Dir.up else Dir.down }) :=
  rfl

unseal Rat.sub Rat.add Rat.mul Rat.inv in
/-- Sanity check of the `structuredField !== null` guard in
`resolveChangeValue`: a `null` structured value contributes no numeric, so
a price record with `old_value = null`, `old_value_raw = "$10.00"`,
`new_value = 15` and a NaN `difference` resolves the old side to `10`
through the raw-candidate loop and presents the delta `15 - 10 = 5`;
without a raw candidate the old side has no numeric and no delta is
presented. -/
theorem resolveChangeValue_null_falls_back_to_raw :
    (resolveChangeValue
       { change_type := some "price", old_value := some JVal.vnull,
         old_value_raw := some (JVal.vstr "$10.00") } Side.old).numeric =
      some 10 ∧
    formatDelta
       { change_type := some "price", difference := some (JVal.vstr "abc"),
         old_value := some JVal.vnull,
         old_value_raw := some (JVal.vstr "$10.00"),
         new_value := some (JVal.vnum 15) } =
      some { amount := 5, direction := Dir.up } ∧
    (resolveChangeValue
       { change_type := some "price", old_value := some JVal.vnull }
       Side.old).numeric = none ∧
    formatDelta
       { change_type := some "price", difference := some (JVal.vstr "abc"),
         old_value := some JVal.vnull,
         new_value := some (JVal.vnum 15) } = none := by
  refine ⟨by decide, by decide, by decide, by decide⟩

/-- C1.  For a change record of type price, every delta the view presents
equals the stored `difference` when that is a finite number and otherwise
the resolved new value minus the resolved old value; the displayed
direction is derived solely from the sign of that number (`up` for
positive, `down` for negative), and the (hypothetical) stored direction
field is never consulted. -/
theorem formatDelta_delta_and_direction (c : ChangeRecord) (info : DeltaInfo)
    (h : formatDelta c = some info) :
    claimedDelta c = some info.amount ∧
    (0 < info.amount → info.direction = Dir.up) ∧
    (info.amount < 0 → info.direction = Dir.down) ∧
    (∀ d, formatDelta { c with direction := d } = some info) := by
  rw [formatDelta_eq] at h
  by_cases hty : changeTypeLower c ≠ "price"
  · rw [if_pos hty] at h
    exact absurd h (by simp)
  · rw [if_neg hty] at h
    rcases hq : claimedDelta c with _ | q <;> rw [hq] at h <;> dsimp only at h
    · exact absurd h (by simp)
    · by_cases heps : |q| < 1 / 1000000000
      · rw [if_pos heps] at h
        exact absurd h (by simp)
      · rw [if_neg heps] at h
        have hinfo : info = { amount := q, direction := if 0 < q then Dir.up else Dir.down } :=
          (Option.some_injective _ h).symm
        subst hinfo
        refine ⟨?_, ?_, ?_, ?_⟩
        · simp [hq]
        · intro hpos
          simp [if_pos hpos]
        · intro hneg
          have hnp : ¬(0 < q) := not_lt.mpr (le_of_lt hneg)
          simp [if_neg hnp]
        · intro d
          have hsame : formatDelta { c with direction := d } = formatDelta c := rfl
          rw [hsame, formatDelta_eq, if_neg hty, hq]
          dsimp only
          rw [if_neg heps]

unseal Rat.sub Rat.add Rat.mul Rat.inv in
/-- Witness for C1 at a concrete record with stored difference `-29/2`. -/
theorem formatDelta_delta_and_direction_witness :
    claimedDelta { change_type := some "price",
                   difference := some (JVal.vnum (-29 / 2)) } =
      some ((-29 / 2 : ℚ)) :=
  (formatDelta_delta_and_direction
    { change_type := some "price", difference := some (JVal.vnum (-29 / 2)) }
    { amount := -29 / 2, direction := Dir.down } (by decide)).1

/-- `buildDifferenceBadge` on a non-baseline price change, restated through
`claimedDelta`. -/
theorem buildDifferenceBadge_price (c : ChangeRecord) (ct : String)
    (hct : c.change_type = some ct) (hne : ct ≠ "")
    (hlow : jsToLower ct = "price") (hbl : c.is_baseline = false) :
    buildDifferenceBadge c =
      (match claimedDelta c with
       | none => none
       | some d =>
         if d = 0 then none
         else some (Badge.price d (if 0 < d then Dir.up else Dir.down))) := by
  unfold buildDifferenceBadge claimedDelta
  rw [hct]
  dsimp only
  rw [if_neg hne, hbl, hlow]
  simp

unseal Rat.sub Rat.add Rat.mul Rat.inv in
/-- C2 counterexample.  A price change whose numeric delta is `1e-10` —
strictly smaller than the `1e-9` epsilon — yields no delta in the table
cell (`formatDelta`), yet `buildDifferenceBadge` still renders a
price-increase badge, so the consumer does show a price-change
indication. -/
theorem subEpsilon_price_badge_rendered_cex :
    |(1 / 10000000000 : ℚ)| < 1 / 1000000000 ∧
    formatDelta { change_type := some "price",
                  difference := some (JVal.vnum (1 / 10000000000)) } = none ∧
    buildDifferenceBadge { change_type := some "price",
                           difference := some (JVal.vnum (1 / 10000000000)) } =
      some (Badge.price (1 / 10000000000) Dir.up) := by
  refine ⟨by decide, by decide, by decide⟩

/-- C2 as amended.  For a price-type change record: when the numeric delta
is not finite nothing is reported anywhere; `formatDelta` suppresses the
delta exactly below the `1e-9` epsilon; `buildDifferenceBadge` (for
non-baseline records) suppresses the badge only for an exactly-zero
delta, and renders a sign-derived badge for every non-zero delta,
including non-zero deltas below the epsilon. -/
theorem price_delta_epsilon_reporting (c : ChangeRecord)
    (hty : changeTypeLower c = "price") :
    (claimedDelta c = none →
      formatDelta c = none ∧
      (c.is_baseline = false → buildDifferenceBadge c = none)) ∧
    (∀ q, claimedDelta c = some q →
      (|q| < 1 / 1000000000 → formatDelta c = none) ∧
      (¬|q| < 1 / 1000000000 →
        formatDelta c =
          some { amount := q, direction := if 0 < q then Dir.up else Dir.down }) ∧
      (c.is_baseline = false → q = 0 → buildDifferenceBadge c = none) ∧
      (c.is_baseline = false → q ≠ 0 →
        buildDifferenceBadge c =
          some (Badge.price q (if 0 < q then Dir.up else Dir.down)))) := by
  have hct : ∃ ct, c.change_type = some ct ∧ ct ≠ "" ∧ jsToLower ct = "price" := by
    rcases hc : c.change_type with _ | ct
    · rw [changeTypeLower, hc] at hty
      exact absurd hty (by decide)
    · refine ⟨ct, rfl, ?_, ?_⟩
      · intro h0
        subst h0
        rw [changeTypeLower, hc] at hty
        exact absurd hty (by decide)
      · rw [changeTypeLower, hc] at hty
        simpa using hty
  rcases hct with ⟨ct, hc, hne, hlow⟩
  have hfd := formatDelta_eq c
  rw [if_neg (by simp [hty])] at hfd
  constructor
  · intro hnone
    rw [hnone] at hfd
    refine ⟨hfd, ?_⟩
    intro hbl
    rw [buildDifferenceBadge_price c ct hc hne hlow hbl, hnone]
  · intro q hq
    rw [hq] at hfd
    dsimp only at hfd
    refine ⟨?_, ?_, ?_, ?_⟩
    · intro heps
      rw [hfd, if_pos heps]
    · intro heps
      rw [hfd, if_neg heps]
    · intro hbl h0
      rw [buildDifferenceBadge_price c ct hc hne hlow hbl, hq]
      dsimp only
      rw [if_pos h0]
    · intro hbl h0
      rw [buildDifferenceBadge_price c ct hc hne hlow hbl, hq]
      dsimp only
      rw [if_neg h0]

unseal Rat.sub Rat.add Rat.mul Rat.inv in
/-- Witness for C2 (amended) at a concrete sub-epsilon non-zero delta. -/
theorem price_delta_epsilon_reporting_witness :
    formatDelta { change_type := some "price",
                  difference := some (JVal.vnum (1 / 10000000000)) } = none :=
  ((price_delta_epsilon_reporting
      { change_type := some "price",
        difference := some (JVal.vnum (1 / 10000000000)) }
      (by decide)).2 (1 / 10000000000) (by decide)).1 (by decide)

/-- C5.  Every change record carrying a change type and flagged
`is_baseline` is rendered with the baseline badge and label — the baseline
branch fires before any delta computation — and its difference description
is the fixed baseline text, never a numeric price-delta badge. -/
theorem baseline_badge_rendering (c : ChangeRecord) (ct : String)
    (hct : c.change_type = some ct) (hne : ct ≠ "")
    (hb : c.is_baseline = true) :
    buildDifferenceBadge c =
      some (Badge.baseline (getBaselineLabel c) (getBaselineDescription c)) ∧
    describeDifference c = some "First snapshot" ∧
    (∀ q d, buildDifferenceBadge c ≠ some (Badge.price q d)) := by
  have hbadge : buildDifferenceBadge c =
      some (Badge.baseline (getBaselineLabel c) (getBaselineDescription c)) := by
    unfold buildDifferenceBadge
    rw [hct]
    dsimp only
    rw [if_neg hne, hb]
    simp
  refine ⟨hbadge, ?_, ?_⟩
  · unfold describeDifference
    rw [hb]
    simp
  · intro q d hpd
    rw [hbadge] at hpd
    simp at hpd

/-- Witness for C5 at a concrete baseline price record. -/
theorem baseline_badge_rendering_witness :
    buildDifferenceBadge { change_type := some "price", is_baseline := true } =
      some (Badge.baseline "New Price"
        "First price snapshot captured for this product.") :=
  (baseline_badge_rendering { change_type := some "price", is_baseline := true }
    "price" rfl (by decide) rfl).1

/-- C10.  In the results-table row mapping, the actual percent-off value
is computed (as `((original − final) / original) × 100`, rounded to two
decimals) exactly when both prices parse to finite numbers and the
original price is strictly positive; in every other case it is `null`, so
the division is never performed with a zero (or negative) denominator. -/
theorem percentOffActual_guarded (it : RawItem) (v : ℚ) :
    (percentOffActual it = some v ↔
      ∃ o f, rowOriginalNum it = some o ∧ rowFinalNum it = some f ∧ 0 < o ∧
        v = round2 ((o - f) / o * 100)) ∧
    ((rowOriginalNum it = none ∨ rowFinalNum it = none ∨
       (∃ o, rowOriginalNum it = some o ∧ o ≤ 0)) →
      percentOffActual it = none) := by
  have hpo : percentOffActual it =
      (match rowOriginalNum it, rowFinalNum it with
       | some o, some f =>
         if 0 < o then some (round2 ((o - f) / o * 100)) else none
       | some _, none => none
       | none, _ => none) := rfl
  constructor
  · constructor
    · intro hv
      rcases ho : rowOriginalNum it with _ | o <;> rw [ho] at hpo
      · rw [hpo] at hv
        exact absurd hv (by simp)
      · rcases hf : rowFinalNum it with _ | f <;> rw [hf] at hpo
        · rw [hpo] at hv
          exact absurd hv (by simp)
        · dsimp only at hpo
          rw [hpo] at hv
          by_cases hpos : 0 < o
          · rw [if_pos hpos] at hv
            exact ⟨o, f, rfl, rfl, hpos,
              (Option.some_injective _ hv).symm⟩
          · rw [if_neg hpos] at hv
            exact absurd hv (by simp)
    · rintro ⟨o, f, ho, hf, hpos, hv⟩
      rw [ho, hf] at hpo
      dsimp only at hpo
      rw [hpo, if_pos hpos, hv]
  · intro h
    rcases ho : rowOriginalNum it with _ | o <;> rw [ho] at hpo
    · rw [hpo]
    · rcases hf : rowFinalNum it with _ | f <;> rw [hf] at hpo
      · rw [hpo]
      · dsimp only at hpo
        rcases h with h | h | ⟨o1, ho1, hle⟩
        · rw [ho] at h
          exact absurd h (by simp)
        · rw [hf] at h
          exact absurd h (by simp)
        · rw [ho] at ho1
          rcases Option.some_injective _ ho1.symm with rfl
          rw [hpo, if_neg (not_lt.mpr hle)]

unseal Rat.sub Rat.add Rat.mul Rat.inv in
/-- Witness for C10: original `$100.00`, discounted `$85.50` gives
`14.50` percent off. -/
theorem percentOffActual_guarded_witness :
    percentOffActual { original_formatted := some "$100.00",
                       discounted_formatted := some "$85.50" } =
      some (29 / 2) :=
  (percentOffActual_guarded
      { original_formatted := some "$100.00",
        discounted_formatted := some "$85.50" } (29 / 2)).1.mpr
    ⟨100, 171 / 2, by decide, by decide, by decide, by decide⟩

/-- C9.  The free-text search index of a history session is built only
from its id, items count, target URLs, host names, discount rules and the
titles/sites of its first 25 items: truncating the items to the first 25
(holding the resolved items count fixed) leaves the index unchanged — so
a query matching only data of an item beyond the 25th cannot change
whether the session matches — and the index never depends on the
timestamp. -/
theorem searchIndex_first25_only (e : RawHistoryEntry) :
    searchIndexOf { e with items := e.items.take 25,
                           items_count := some (JVal.vnum (itemsCountOf e)) } =
      searchIndexOf e ∧
    (∀ ts, searchIndexOf { e with timestamp_ms := ts } = searchIndexOf e) ∧
    (∀ q, jsIncludes
        (searchIndexOf { e with items := e.items.take 25,
                                items_count := some (JVal.vnum (itemsCountOf e)) }) q =
      jsIncludes (searchIndexOf e) q) := by
  have hcount : itemsCountOf { e with items := e.items.take 25,
                                       items_count := some (JVal.vnum (itemsCountOf e)) } =
      itemsCountOf e := rfl
  have hparts : searchParts { e with items := e.items.take 25,
                                     items_count := some (JVal.vnum (itemsCountOf e)) } =
      searchParts e := by
    unfold searchParts
    rw [hcount]
    have htake : (e.items.take 25).take 25 = e.items.take 25 := by
      simp [List.take_take]
    rw [htake]
    rfl
  have hidx : searchIndexOf { e with items := e.items.take 25,
                                      items_count := some (JVal.vnum (itemsCountOf e)) } =
      searchIndexOf e := by
    unfold searchIndexOf
    rw [hparts]
  exact ⟨hidx, fun ts => rfl, fun q => by rw [hidx]⟩

/-- The per-entry filter predicate of the history `applyFilters`, spelled
out as the conjunction of the five individual filter conditions. -/
theorem historyEntryPasses_iff (fs : FilterState) (e : HistoryEntry) :
    historyEntryPasses fs e = true ↔
      (jsTrim fs.search ≠ "" → jsIncludes e.search_index (jsTrim fs.search) = true) ∧
      (∀ st, fs.startDate = some st → ∃ t, e.timestamp_ms = some t ∧ st ≤ t) ∧
      (∀ en, fs.endDate = some en → ∃ t, e.timestamp_ms = some t ∧ t ≤ en) ∧
      (fs.minItems ≠ 0 → fs.minItems ≤ e.items_count) ∧
      (fs.site ≠ "" → fs.site ∈ e.host_list) := by
  unfold historyEntryPasses
  rcases hsd : fs.startDate with _ | st <;> rcases hed : fs.endDate with _ | en <;>
    rcases hts : e.timestamp_ms with _ | t <;>
      simp [hsd, hed, hts, List.elem_iff, not_lt] <;> tauto

/-- C6.  History filters are conjunctive and composable: an entry appears
in the filtered list exactly when it is in the data and simultaneously
satisfies every active filter (free-text search over the search index,
start date, end date, minimum item count, site); with no active filters
every entry appears, in order. -/
theorem applyFilters_conjunctive (fs : FilterState) (data : List HistoryEntry) :
    (∀ e, e ∈ applyFilters fs data ↔
      e ∈ data ∧
      (jsTrim fs.search ≠ "" → jsIncludes e.search_index (jsTrim fs.search) = true) ∧
      (∀ st, fs.startDate = some st → ∃ t, e.timestamp_ms = some t ∧ st ≤ t) ∧
      (∀ en, fs.endDate = some en → ∃ t, e.timestamp_ms = some t ∧ t ≤ en) ∧
      (fs.minItems ≠ 0 → fs.minItems ≤ e.items_count) ∧
      (fs.site ≠ "" → fs.site ∈ e.host_list)) ∧
    (jsTrim fs.search = "" → fs.startDate = none → fs.endDate = none →
      fs.minItems = 0 → fs.site = "" → applyFilters fs data = data) := by
  constructor
  · intro e
    rw [applyFilters, List.mem_filter, historyEntryPasses_iff]
  · intro hs hsd hed hmi hsite
    rw [applyFilters, List.filter_eq_self]
    intro e he
    rw [historyEntryPasses_iff]
    refine ⟨fun h => absurd hs h, ?_, ?_, fun h => absurd hmi h, fun h => absurd hsite h⟩
    · intro st hst
      rw [hsd] at hst
      exact absurd hst (by simp)
    · intro en hen
      rw [hed] at hen
      exact absurd hen (by simp)

/-- Witness for C6: with no active filters a concrete one-entry list is
returned unchanged. -/
theorem applyFilters_conjunctive_witness :
    applyFilters { search := "", startDate := none, endDate := none,
                   minItems := 0, site := "" }
      [{ search_index := "run1 | example.com", timestamp_ms := some 1000,
         items_count := 3, host_list := ["example.com"] }] =
      [{ search_index := "run1 | example.com", timestamp_ms := some 1000,
         items_count := 3, host_list := ["example.com"] }] :=
  (applyFilters_conjunctive _ _).2 rfl rfl rfl rfl rfl

/-- C7.  With sort mode `recent` the change list is returned in its
natural API order, unchanged.  With sort mode `title` the result is a
permutation of the input that is sorted under the title comparator —
locale-aware (any consistent collation `lc`) and case-insensitive
(titles are lowercased first) — and no record lacking a title ever
precedes one that has a title. -/
theorem sortChanges_modes (lc : String → String → ℤ)
    (htrans : ∀ a b c, lc a b ≤ 0 → lc b c ≤ 0 → lc a c ≤ 0)
    (htot : ∀ a b, lc a b ≤ 0 ∨ lc b a ≤ 0) :
    (∀ items, sortChanges lc "recent" items = items) ∧
    (∀ items,
      (sortChanges lc "title" items).Perm items ∧
      List.Pairwise (fun a b => titleComparator lc a b ≤ 0)
        (sortChanges lc "title" items) ∧
      List.Pairwise
        (fun a b => jsToLower (a.title.getD "") = "" →
          jsToLower (b.title.getD "") = "")
        (sortChanges lc "title" items)) := by
  have hcmp_trans : ∀ a b c : ChangeRecord,
      titleComparator lc a b ≤ 0 → titleComparator lc b c ≤ 0 →
      titleComparator lc a c ≤ 0 := by
    intro a b c hab hbc
    unfold titleComparator at *
    by_cases ha : jsToLower (a.title.getD "") = "" <;>
      by_cases hb : jsToLower (b.title.getD "") = "" <;>
        by_cases hc : jsToLower (c.title.getD "") = "" <;>
          simp [ha, hb, hc] at hab hbc ⊢ <;>
        first
          | exact htrans _ _ _ hab hbc
          | omega
          | trivial
  have hcmp_tot : ∀ a b : ChangeRecord,
      titleComparator lc a b ≤ 0 ∨ titleComparator lc b a ≤ 0 := by
    intro a b
    unfold titleComparator
    by_cases ha : jsToLower (a.title.getD "") = "" <;>
      by_cases hb : jsToLower (b.title.getD "") = "" <;>
        simp [ha, hb] <;>
      first
        | exact htot _ _
        | omega
        | trivial
  constructor
  · intro items
    cases items <;> simp [sortChanges]
  · intro items
    rcases hitems : items with _ | ⟨c, rest⟩
    · exact ⟨List.Perm.refl _, List.Pairwise.nil, List.Pairwise.nil⟩
    · have hsort : sortChanges lc "title" (c :: rest) =
          (c :: rest).mergeSort (fun a b => titleComparator lc a b ≤ 0) := by
        unfold sortChanges
        rw [if_neg (by simp), if_pos rfl]
      have hperm := List.mergeSort_perm (c :: rest)
        (fun a b => titleComparator lc a b ≤ 0)
      have hpair := @List.sorted_mergeSort ChangeRecord
        (fun a b => titleComparator lc a b ≤ 0)
        (fun a b d hab hbd => by
          simp only [decide_eq_true_eq] at *
          exact hcmp_trans a b d hab hbd)
        (fun a b => by
          simp only [Bool.or_eq_true, decide_eq_true_eq]
          exact hcmp_tot a b)
        (c :: rest)
      rw [hsort]
      refine ⟨hperm, ?_, ?_⟩
      · exact hpair.imp (by simp only [decide_eq_true_eq]; exact fun h => h)
      · refine hpair.imp ?_
        intro a b hab
        simp only [decide_eq_true_eq] at hab
        intro hea
        unfold titleComparator at hab
        rw [hea] at hab
        by_cases heb : jsToLower (b.title.getD "") = ""
        · exact heb
        · simp [heb] at hab

/-- Witness for C7 with a concrete (constant, hence consistent) collation
and a concrete two-record list in recent mode. -/
theorem sortChanges_modes_witness :
    sortChanges (fun _ _ => 0) "recent"
      [{ title := some "b" }, { title := some "a" }] =
      [{ title := some "b" }, { title := some "a" }] :=
  (sortChanges_modes (fun _ _ => 0)
    (fun _ _ _ h _ => h) (fun _ _ => Or.inl (le_refl 0))).1 _

/-- `find?` returns the element at the first index whose test succeeds. -/
theorem find_first_of_matches {α : Type} (p : α → Bool) :
    ∀ (l : List α) (i : ℕ) (hi : i < l.length),
      p (l.get ⟨i, hi⟩) = true →
      (∀ j (hj : j < l.length), j < i → p (l.get ⟨j, hj⟩) = false) →
      l.find? p = some (l.get ⟨i, hi⟩)
  | [], i, hi, _, _ => absurd hi (by simp)
  | a :: t, 0, _, hp, _ => by
    simp only [List.get] at hp
    simp [List.find?, hp]
  | a :: t, i + 1, hi, hp, hbefore => by
    have ha : p a = false := hbefore 0 (by simp) (Nat.succ_pos i)
    have hshift : ∀ j (hj : j < t.length), j < i →
        p (t.get ⟨j, hj⟩) = false := by
      intro j hj hji
      have := hbefore (j + 1) (by simpa using Nat.succ_lt_succ hj)
        (Nat.succ_lt_succ hji)
      simpa using this
    have ht := find_first_of_matches p t i (by simpa using hi)
      (by simpa using hp) hshift
    simp [List.find?, ha, ht]

/-- Collapsing underscore runs never empties a non-empty list. -/
theorem collapseUnderscores_ne_nil :
    ∀ l : List Char, l ≠ [] → collapseUnderscores l ≠ []
  | [], h => absurd rfl h
  | [c], _ => by simp [collapseUnderscores]
  | a :: b :: rest, _ => by
    unfold collapseUnderscores
    split
    · exact collapseUnderscores_ne_nil (b :: rest) (by simp)
    · simp

/-- The slug of a non-empty string is non-empty. -/
theorem canonicalSlug_ne_empty (s : String) (h : s.data ≠ []) :
    canonicalSlug s ≠ "" := by
  unfold canonicalSlug
  intro he
  have : collapseUnderscores (s.data.map
      (fun c => if 'a' ≤ c ∧ c ≤ 'z' then c else '_')) = [] := by
    have := congrArg String.data he
    simpa using this
  exact collapseUnderscores_ne_nil _ (by simpa using h) this

/-- C3 counterexample.  The non-empty input `"unknown"` normalizes to
`"unknown"`, so `"unknown"` is not produced only for null or empty
input. -/
theorem normaliseStockValue_unknown_literal_cex :
    normaliseStockValue (some "unknown") = "unknown" ∧
    jsTrim "unknown" ≠ "" := by
  refine ⟨by decide, by decide⟩

/-- C3 as amended.  For every non-empty free-text stock value (`lowered`
being the trimmed lower-cased input and `canonical` its slug): when the
slug is exactly one of the known status labels it is returned directly;
otherwise the value of the first matching entry of the fixed ordered
keyword list (out-of-stock, back-order, preorder, limited, discontinued,
in-stock) wins; when nothing matches, the (always non-empty) slug of the
raw text is returned rather than `"unknown"`; and a non-empty input
yields `"unknown"` only when its slug is the literal label
`"unknown"`. -/
theorem normaliseStockValue_spec (s : String) (h : jsTrim s ≠ "") :
    (stockLabelKeys.contains (canonicalSlug (jsToLower (jsTrim s))) = true →
      normaliseStockValue (some s) = canonicalSlug (jsToLower (jsTrim s))) ∧
    (∀ i : Fin STOCK_KEYWORDS.length,
      stockLabelKeys.contains (canonicalSlug (jsToLower (jsTrim s))) = false →
      (STOCK_KEYWORDS.get i).1 (jsToLower (jsTrim s)) = true →
      (∀ j : Fin STOCK_KEYWORDS.length, (j : ℕ) < (i : ℕ) →
        (STOCK_KEYWORDS.get j).1 (jsToLower (jsTrim s)) = false) →
      normaliseStockValue (some s) = (STOCK_KEYWORDS.get i).2) ∧
    (stockLabelKeys.contains (canonicalSlug (jsToLower (jsTrim s))) = false →
      (∀ kw ∈ STOCK_KEYWORDS, kw.1 (jsToLower (jsTrim s)) = false) →
      normaliseStockValue (some s) = canonicalSlug (jsToLower (jsTrim s))) ∧
    canonicalSlug (jsToLower (jsTrim s)) ≠ "" ∧
    (normaliseStockValue (some s) = "unknown" →
      canonicalSlug (jsToLower (jsTrim s)) = "unknown") := by
  have hslug : canonicalSlug (jsToLower (jsTrim s)) ≠ "" := by
    apply canonicalSlug_ne_empty
    intro hd
    apply h
    have hnil : (jsTrim s).data = [] := by
      simpa [jsToLower, List.map_eq_nil_iff] using hd
    exact String.ext hnil
  have hval : normaliseStockValue (some s) =
      (if stockLabelKeys.contains (canonicalSlug (jsToLower (jsTrim s))) then
         canonicalSlug (jsToLower (jsTrim s))
       else
         match STOCK_KEYWORDS.find?
             (fun kw => kw.1 (jsToLower (jsTrim s))) with
         | some kw => kw.2
         | none =>
           if canonicalSlug (jsToLower (jsTrim s)) ≠ "" then
             canonicalSlug (jsToLower (jsTrim s))
           else "unknown") := by
    unfold normaliseStockValue
    dsimp only
    rw [if_neg h]
  refine ⟨?_, ?_, ?_, hslug, ?_⟩
  · intro hlab
    rw [hval, if_pos hlab]
  · intro i hlab hp hbefore
    have hfind := find_first_of_matches
      (fun kw => kw.1 (jsToLower (jsTrim s))) STOCK_KEYWORDS i i.isLt
      hp (fun j hj hji => hbefore ⟨j, hj⟩ hji)
    rw [hval, if_neg (by rw [hlab]; simp), hfind]
  · intro hlab hnone
    have hfind : STOCK_KEYWORDS.find?
        (fun kw => kw.1 (jsToLower (jsTrim s))) = none :=
      List.find?_eq_none.mpr (fun kw hkw => by simp [hnone kw hkw])
    rw [hval, if_neg (by rw [hlab]; simp), hfind]
    simp [hslug]
  · intro hu
    rw [hval] at hu
    by_cases hlab : stockLabelKeys.contains (canonicalSlug (jsToLower (jsTrim s))) = true
    · rw [if_pos hlab] at hu
      exact hu
    · rw [if_neg hlab] at hu
      rcases hfind : STOCK_KEYWORDS.find?
          (fun kw => kw.1 (jsToLower (jsTrim s))) with _ | kw <;>
        rw [hfind] at hu
      · rw [if_pos hslug] at hu
        exact hu
      · exfalso
        have hmem := List.mem_of_find?_eq_some hfind
        have : kw.2 ≠ "unknown" := by
          simp only [STOCK_KEYWORDS, List.mem_cons, List.mem_singleton,
            List.not_mem_nil, or_false] at hmem
          rcases hmem with rfl | rfl | rfl | rfl | rfl | rfl <;> decide
        exact this hu

/-- Witness for C3 (amended): `"almost gone"` matches no label, matches
the `limited` keyword entry (index 3) and none before it. -/
theorem normaliseStockValue_spec_witness :
    normaliseStockValue (some "almost gone") =
      (STOCK_KEYWORDS.get ⟨3, by decide⟩).2 :=
  (normaliseStockValue_spec "almost gone" (by decide)).2.1
    ⟨3, by decide⟩ (by decide) (by decide) (by decide)

theorem char_toNat_ofNat_valid (n : ℕ) (hv : n.isValidChar) :
    (Char.ofNat n).toNat = n := by
  simp [Char.ofNat, hv, Char.toNat, Char.ofNatAux, UInt32.toNat, UInt32.ofNat',
    BitVec.toNat_ofNatLt]

theorem char_eq_iff_toNat (c d : Char) : c = d ↔ c.toNat = d.toNat := by
  rw [Char.ext_iff, UInt32.ext_iff]
  rfl

theorem toLower_toNat (c : Char) :
    (Char.toLower c).toNat =
      if 65 ≤ c.toNat ∧ c.toNat ≤ 90 then c.toNat + 32 else c.toNat := by
  unfold Char.toLower
  simp only []
  split
  · next hcond =>
    exact char_toNat_ofNat_valid (c.toNat + 32) (Or.inl (by omega))
  · next hcond =>
    rfl

theorem jsWhitespace_false_of_range (c : Char) (h1 : 33 ≤ c.toNat)
    (h2 : c.toNat ≤ 159) : jsWhitespace c = false := by
  unfold jsWhitespace
  simp only [Bool.or_eq_false_iff, Bool.and_eq_false_iff, decide_eq_false_iff_not,
    UInt32.ext_iff, UInt32.toNat_ofNat, Char.toNat, UInt32.le_def, UInt32.toNat] at *
  norm_num [BitVec.lt_def, BitVec.le_def]
  omega

theorem jsWhitespace_toLower (c : Char) :
    jsWhitespace (Char.toLower c) = jsWhitespace c := by
  by_cases hup : 65 ≤ c.toNat ∧ c.toNat ≤ 90
  · have h1 : jsWhitespace (Char.toLower c) = false := by
      apply jsWhitespace_false_of_range
      · rw [toLower_toNat, if_pos hup]; omega
      · rw [toLower_toNat, if_pos hup]; omega
    have h2 : jsWhitespace c = false :=
      jsWhitespace_false_of_range c (by omega) (by omega)
    rw [h1, h2]
  · have : Char.toLower c = c := by
      rw [char_eq_iff_toNat, toLower_toNat, if_neg hup]
    rw [this]

theorem toLower_eq_slash (c : Char) : (Char.toLower c = '/') ↔ (c = '/') := by
  by_cases hup : 65 ≤ c.toNat ∧ c.toNat ≤ 90
  · have h : (Char.toLower c).toNat = c.toNat + 32 := by
      rw [toLower_toNat, if_pos hup]
    have h47 : ('/' : Char).toNat = 47 := rfl
    constructor
    · intro hs
      rw [char_eq_iff_toNat, h, h47] at hs
      exact absurd hs (by omega)
    · intro hs
      rw [char_eq_iff_toNat, h47] at hs
      exact absurd hs (by omega)
  · have h : Char.toLower c = c := by
      rw [char_eq_iff_toNat, toLower_toNat, if_neg hup]
    rw [h]

theorem toLower_idem (c : Char) :
    Char.toLower (Char.toLower c) = Char.toLower c := by
  by_cases hup : 65 ≤ c.toNat ∧ c.toNat ≤ 90
  · have h : (Char.toLower c).toNat = c.toNat + 32 := by
      rw [toLower_toNat, if_pos hup]
    rw [char_eq_iff_toNat, toLower_toNat (Char.toLower c), h, if_neg (by omega)]
  · have h : Char.toLower c = c := by
      rw [char_eq_iff_toNat, toLower_toNat, if_neg hup]
    rw [h]
    exact h

theorem head?_dropWhile {α : Type} (p : α → Bool) (l : List α) (c : α)
    (h : (l.dropWhile p).head? = some c) : p c = false := by
  have hh := List.head?_dropWhile_not p l
  rw [h] at hh
  exact hh

theorem dropWhile_eq_self_of_head {α : Type} (p : α → Bool) (l : List α)
    (h : ∀ c, l.head? = some c → p c = false) : l.dropWhile p = l := by
  cases l with
  | nil => rfl
  | cons a t =>
    have ha := h a rfl
    simp [List.dropWhile, ha]

theorem getLast?_dropWhile_of_ne_nil {α : Type} (p : α → Bool) :
    ∀ l : List α, l.dropWhile p ≠ [] →
      (l.dropWhile p).getLast? = l.getLast?
  | [], h => absurd rfl h
  | a :: t, h => by
    by_cases hp : p a = true
    · have hd : (a :: t).dropWhile p = t.dropWhile p := by
        simp [List.dropWhile, hp]
      rw [hd] at h ⊢
      rcases ht : t with _ | ⟨b, t2⟩
      · rw [ht] at h
        exact absurd rfl h
      · rw [ht] at h
        rw [getLast?_dropWhile_of_ne_nil p (b :: t2) h,
          List.getLast?_cons_cons]
    · have hd : (a :: t).dropWhile p = a :: t := by
        simp [List.dropWhile, hp]
      rw [hd]

theorem dropWhile_replicate_append {α : Type} (p : α → Bool) (a : α)
    (hp : p a = true) :
    ∀ (m : ℕ) (l : List α),
      (List.replicate m a ++ l).dropWhile p = l.dropWhile p
  | 0, l => rfl
  | m + 1, l => by
    simp only [List.replicate, List.cons_append, List.dropWhile, hp]
    exact dropWhile_replicate_append p a hp m l

theorem stripTrailingSlashes_data (s : String) :
    (stripTrailingSlashes s).data = stripSlashList s.data := rfl

theorem jsTrimList_head (cs : List Char) (c : Char)
    (h : (jsTrimList cs).head? = some c) : jsWhitespace c = false := by
  unfold jsTrimList at h
  rw [List.head?_reverse] at h
  have hne : (cs.dropWhile jsWhitespace).reverse.dropWhile jsWhitespace ≠ [] := by
    intro he
    rw [he] at h
    exact absurd h (by simp)
  rw [getLast?_dropWhile_of_ne_nil _ _ hne, List.getLast?_reverse] at h
  exact head?_dropWhile _ _ _ h

theorem jsTrimList_last (cs : List Char) (c : Char)
    (h : (jsTrimList cs).getLast? = some c) : jsWhitespace c = false := by
  unfold jsTrimList at h
  rw [List.getLast?_reverse] at h
  exact head?_dropWhile _ _ _ h

theorem jsTrimList_eq_self (cs : List Char)
    (hh : ∀ c, cs.head? = some c → jsWhitespace c = false)
    (hl : ∀ c, cs.getLast? = some c → jsWhitespace c = false) :
    jsTrimList cs = cs := by
  unfold jsTrimList
  rw [dropWhile_eq_self_of_head _ _ hh]
  rw [dropWhile_eq_self_of_head _ _ (fun c hc => hl c (by
    rw [List.head?_reverse] at hc
    exact hc))]
  exact List.reverse_reverse cs

theorem stripSlashList_eq_self (cs : List Char)
    (hl : ∀ c, cs.getLast? = some c → (c = '/') = False) :
    stripSlashList cs = cs := by
  unfold stripSlashList
  rw [dropWhile_eq_self_of_head _ _ (fun c hc => by
    rw [List.head?_reverse] at hc
    simp [hl c hc])]
  exact List.reverse_reverse cs

theorem stripSlashList_last (cs : List Char) (c : Char)
    (h : (stripSlashList cs).getLast? = some c) : ¬(c = '/') := by
  unfold stripSlashList at h
  rw [List.getLast?_reverse] at h
  have := head?_dropWhile _ _ _ h
  simpa using this

theorem stripSlashList_head (cs : List Char) (c : Char)
    (h : (stripSlashList cs).head? = some c) : cs.head? = some c := by
  unfold stripSlashList at h
  rw [List.head?_reverse] at h
  have hne : cs.reverse.dropWhile (fun c => c = '/') ≠ [] := by
    intro he
    rw [he] at h
    exact absurd h (by simp)
  rw [getLast?_dropWhile_of_ne_nil _ _ hne, List.getLast?_reverse] at h
  exact h

theorem stripSlashList_append_replicate (cs : List Char) (m : ℕ) :
    stripSlashList (cs ++ List.replicate m '/') = stripSlashList cs := by
  unfold stripSlashList
  rw [List.reverse_append, List.reverse_replicate,
    dropWhile_replicate_append _ _ (by simp) m]

theorem dropWhile_ws_map_toLower (l : List Char) :
    (l.map Char.toLower).dropWhile jsWhitespace =
      (l.dropWhile jsWhitespace).map Char.toLower := by
  rw [List.dropWhile_map]
  have hpf : (jsWhitespace ∘ Char.toLower) = jsWhitespace :=
    funext jsWhitespace_toLower
  rw [hpf]

theorem dropWhile_slash_map_toLower (l : List Char) :
    (l.map Char.toLower).dropWhile (fun c => c = '/') =
      (l.dropWhile (fun c => c = '/')).map Char.toLower := by
  rw [List.dropWhile_map]
  have hpf : ((fun c => decide (c = '/')) ∘ Char.toLower) =
      (fun c => decide (c = '/')) := by
    funext c
    simp only [Function.comp]
    exact decide_eq_decide.mpr (toLower_eq_slash c)
  rw [hpf]

theorem jsTrimList_map_toLower (cs : List Char) :
    jsTrimList (cs.map Char.toLower) = (jsTrimList cs).map Char.toLower := by
  unfold jsTrimList
  rw [dropWhile_ws_map_toLower, ← List.map_reverse, dropWhile_ws_map_toLower,
    ← List.map_reverse]

theorem stripSlashList_map_toLower (cs : List Char) :
    stripSlashList (cs.map Char.toLower) =
      (stripSlashList cs).map Char.toLower := by
  unfold stripSlashList
  rw [← List.map_reverse, dropWhile_slash_map_toLower, ← List.map_reverse]

theorem lastIsWhitespace_spec (s : String) (h : lastIsWhitespace s = false)
    (c : Char) (hc : s.data.getLast? = some c) : jsWhitespace c = false := by
  unfold lastIsWhitespace at h
  rw [hc] at h
  exact h

theorem normalizeCategoryUrl_data (u : String) (hu : u ≠ "") :
    normalizeCategoryUrl u =
      ⟨(stripSlashList (jsTrimList u.data)).map Char.toLower⟩ := by
  unfold normalizeCategoryUrl
  rw [if_neg hu]
  rfl

/-- C8 counterexample.  Canonicalizing `"a /"` yields `"a "` (stripping
the slash exposes a trailing space), and canonicalizing again yields
`"a"`: canonicalization is not idempotent. -/
theorem normalizeCategoryUrl_not_idempotent_cex :
    normalizeCategoryUrl (normalizeCategoryUrl "a /") ≠
      normalizeCategoryUrl "a /" ∧
    normalizeCategoryUrl "a /" = "a " ∧
    normalizeCategoryUrl (normalizeCategoryUrl "a /") = "a" := by
  refine ⟨by decide, by decide, by decide⟩

/-- C8 as amended.  Canonicalization is idempotent on every URL whose
canonical form retains no trailing whitespace (stripping trailing slashes
can expose trailing whitespace that only a second pass would remove); two
URLs that differ only in letter case always canonicalize to the same key;
and appending any number of trailing slashes to a core that does not end
in whitespace never changes the key. -/
theorem normalizeCategoryUrl_spec :
    (∀ u : String,
      lastIsWhitespace (stripTrailingSlashes (jsTrim u)) = false →
      normalizeCategoryUrl (normalizeCategoryUrl u) = normalizeCategoryUrl u) ∧
    (∀ u v : String, jsToLower u = jsToLower v →
      normalizeCategoryUrl u = normalizeCategoryUrl v) ∧
    (∀ (core : String) (m n : ℕ),
      lastIsWhitespace core = false →
      normalizeCategoryUrl (core ++ slashes m) =
        normalizeCategoryUrl (core ++ slashes n)) := by
  have hempty : ∀ s : String, s.data = [] → s = "" := fun s h => String.ext h
  refine ⟨?_, ?_, ?_⟩
  · -- idempotence under the no-exposed-trailing-whitespace hypothesis
    intro u hlast
    by_cases hu : u = ""
    · subst hu
      rfl
    · rw [normalizeCategoryUrl_data u hu]
      by_cases hw : (⟨(stripSlashList (jsTrimList u.data)).map Char.toLower⟩ : String) = ""
      · rw [hw]
        rfl
      · rw [normalizeCategoryUrl_data _ hw]
        have hdata : (⟨(stripSlashList (jsTrimList u.data)).map Char.toLower⟩ : String).data =
            (stripSlashList (jsTrimList u.data)).map Char.toLower := rfl
        rw [hdata]
        have hlast2 : ∀ c, (stripSlashList (jsTrimList u.data)).getLast? = some c →
            jsWhitespace c = false := by
          intro c hc
          apply lastIsWhitespace_spec _ hlast
          rw [stripTrailingSlashes_data]
          exact hc
        have hhead : ∀ c, (stripSlashList (jsTrimList u.data)).head? = some c →
            jsWhitespace c = false := by
          intro c hc
          exact jsTrimList_head u.data c (stripSlashList_head _ c hc)
        have htrim : jsTrimList ((stripSlashList (jsTrimList u.data)).map Char.toLower) =
            (stripSlashList (jsTrimList u.data)).map Char.toLower := by
          apply jsTrimList_eq_self
          · intro c hc
            rw [List.head?_map] at hc
            rcases ho : (stripSlashList (jsTrimList u.data)).head? with _ | c0
            · rw [ho] at hc
              exact absurd hc (by simp)
            · rw [ho] at hc
              rcases Option.some_injective _ hc with rfl
              rw [jsWhitespace_toLower]
              exact hhead c0 ho
          · intro c hc
            rw [List.getLast?_map] at hc
            rcases ho : (stripSlashList (jsTrimList u.data)).getLast? with _ | c0
            · rw [ho] at hc
              exact absurd hc (by simp)
            · rw [ho] at hc
              rcases Option.some_injective _ hc with rfl
              rw [jsWhitespace_toLower]
              exact hlast2 c0 ho
        have hstrip : stripSlashList ((stripSlashList (jsTrimList u.data)).map Char.toLower) =
            (stripSlashList (jsTrimList u.data)).map Char.toLower := by
          apply stripSlashList_eq_self
          intro c hc
          rw [List.getLast?_map] at hc
          rcases ho : (stripSlashList (jsTrimList u.data)).getLast? with _ | c0
          · rw [ho] at hc
            exact absurd hc (by simp)
          · rw [ho] at hc
            rcases Option.some_injective _ hc with rfl
            have hns := stripSlashList_last (jsTrimList u.data) c0 ho
            simp [toLower_eq_slash, hns]
        have hmap : (((stripSlashList (jsTrimList u.data)).map Char.toLower).map Char.toLower) =
            (stripSlashList (jsTrimList u.data)).map Char.toLower := by
          rw [List.map_map]
          have : Char.toLower ∘ Char.toLower = Char.toLower := funext toLower_idem
          rw [this]
        have hfinal : (⟨(stripSlashList (jsTrimList ((stripSlashList (jsTrimList u.data)).map Char.toLower))).map Char.toLower⟩ : String) =
            ⟨(stripSlashList (jsTrimList u.data)).map Char.toLower⟩ := by
          rw [htrim, hstrip, hmap]
        exact hfinal
  · -- case-insensitivity
    intro u v huv
    have hdata : u.data.map Char.toLower = v.data.map Char.toLower := by
      have := congrArg String.data huv
      simpa [jsToLower] using this
    by_cases hu : u = ""
    · subst hu
      have : v.data = [] := by
        simpa using hdata.symm
      rw [hempty v this]
    · have hv : v ≠ "" := by
        intro hv
        subst hv
        apply hu
        apply hempty
        simpa using hdata
      rw [normalizeCategoryUrl_data u hu, normalizeCategoryUrl_data v hv]
      have hcomm : ∀ cs : List Char,
          (stripSlashList (jsTrimList cs)).map Char.toLower =
            stripSlashList (jsTrimList (cs.map Char.toLower)) := by
        intro cs
        rw [jsTrimList_map_toLower, stripSlashList_map_toLower]
      have h1 := hcomm u.data
      have h2 := hcomm v.data
      rw [hdata] at h1
      exact congrArg String.mk (h1.trans h2.symm)
  · -- trailing-slash insensitivity
    intro core m n hcore
    have hlastrep : ∀ k : ℕ, ∀ c : Char,
        (core.data.dropWhile jsWhitespace ++ List.replicate k '/').getLast? = some c →
        jsWhitespace c = false := by
      intro k c hc
      rcases k with _ | k2
      · simp only [List.replicate, List.append_nil] at hc
        have hne : core.data.dropWhile jsWhitespace ≠ [] := by
          intro he
          rw [he] at hc
          exact absurd hc (by simp)
        rw [getLast?_dropWhile_of_ne_nil _ _ hne] at hc
        exact lastIsWhitespace_spec core hcore c hc
      · rw [List.getLast?_append_of_ne_nil _ (by simp)] at hc
        have : (List.replicate (k2 + 1) '/').getLast? = some '/' := by
          simp [List.getLast?_replicate]
        rw [this] at hc
        rcases Option.some_injective _ hc with rfl
        decide
    have htrim : ∀ k : ℕ,
        jsTrimList (core.data ++ List.replicate k '/') =
          core.data.dropWhile jsWhitespace ++ List.replicate k '/' := by
      intro k
      have hleft : (core.data ++ List.replicate k '/').dropWhile jsWhitespace =
          core.data.dropWhile jsWhitespace ++ List.replicate k '/' := by
        rw [List.dropWhile_append]
        by_cases hdl : (core.data.dropWhile jsWhitespace).isEmpty = true
        · rw [if_pos hdl]
          have hdlnil : core.data.dropWhile jsWhitespace = [] :=
            List.isEmpty_iff.mp hdl
          rw [hdlnil, List.nil_append]
          apply dropWhile_eq_self_of_head
          intro c hc
          rcases k with _ | k2
          · exact absurd hc (by simp)
          · simp only [List.replicate, List.head?_cons] at hc
            rcases Option.some_injective _ hc with rfl
            decide
        · rw [if_neg hdl]
      have hright :
          (((core.data.dropWhile jsWhitespace ++ List.replicate k '/').reverse.dropWhile
            jsWhitespace).reverse) =
          core.data.dropWhile jsWhitespace ++ List.replicate k '/' := by
        rw [dropWhile_eq_self_of_head _ _ (fun c hc => by
          rw [List.head?_reverse] at hc
          exact hlastrep k c hc)]
        exact List.reverse_reverse _
      unfold jsTrimList
      rw [hleft]
      exact hright
    have key : ∀ k : ℕ,
        normalizeCategoryUrl (core ++ slashes k) =
          ⟨(stripSlashList (core.data.dropWhile jsWhitespace)).map Char.toLower⟩ := by
      intro k
      have hdata : (core ++ slashes k).data = core.data ++ List.replicate k '/' := by
        rw [String.data_append]
        rfl
      by_cases hz : core ++ slashes k = ""
      · have hnil : core.data ++ List.replicate k '/' = [] := by
          rw [← hdata, hz]
        have hcnil : core.data = [] := (List.append_eq_nil.mp hnil).1
        rw [hz, hcnil]
        rfl
      · rw [normalizeCategoryUrl_data _ hz]
        have hred : jsTrimList (core ++ slashes k).data =
            core.data.dropWhile jsWhitespace ++ List.replicate k '/' := by
          rw [hdata]
          exact htrim k
        rw [hred, stripSlashList_append_replicate]
    rw [key m, key n]

/-- Witness for C8 (amended): idempotence at a concrete URL with case,
trailing slashes and no exposed trailing whitespace. -/
theorem normalizeCategoryUrl_spec_witness :
    normalizeCategoryUrl (normalizeCategoryUrl "HTTPS://Example.com/Cat//") =
      normalizeCategoryUrl "HTTPS://Example.com/Cat//" :=
  normalizeCategoryUrl_spec.1 "HTTPS://Example.com/Cat//" (by decide)

theorem char_isDigit_iff_toNat (c : Char) :
    c.isDigit = true ↔ 48 ≤ c.toNat ∧ c.toNat ≤ 57 := by
  unfold Char.isDigit
  simp only [Bool.and_eq_true, decide_eq_true_eq, UInt32.le_def,
    UInt32.toNat, Char.toNat, ge_iff_le]
  exact Iff.rfl

theorem digit_not_ws (c : Char) (h : c.isDigit = true) :
    jsWhitespace c = false := by
  have hr := (char_isDigit_iff_toNat c).mp h
  exact jsWhitespace_false_of_range c (by omega) (by omega)

theorem digit_ne (c : Char) (h : c.isDigit = true) :
    c ≠ ',' ∧ c ≠ '.' ∧ c ≠ '+' ∧ c ≠ '-' ∧ c ≠ 'e' ∧ c ≠ 'E' := by
  have hr := (char_isDigit_iff_toNat c).mp h
  have hc1 : (',' : Char).toNat = 44 := rfl
  have hc2 : ('.' : Char).toNat = 46 := rfl
  have hc3 : ('+' : Char).toNat = 43 := rfl
  have hc4 : ('-' : Char).toNat = 45 := rfl
  have hc5 : ('e' : Char).toNat = 101 := rfl
  have hc6 : ('E' : Char).toNat = 69 := rfl
  refine ⟨?_, ?_, ?_, ?_, ?_, ?_⟩ <;>
    · intro he
      rw [char_eq_iff_toNat] at he
      omega

theorem takeDigitsExact_exact (k : ℕ) (ds l : List Char)
    (hlen : ds.length = k) (hdig : ∀ c ∈ ds, c.isDigit = true) :
    takeDigitsExact k (ds ++ l) = some (ds, l) := by
  unfold takeDigitsExact
  subst hlen
  rw [List.take_left, List.drop_left]
  rw [if_pos ⟨rfl, List.all_eq_true.mpr hdig⟩]

theorem takeDigitsExact_fail (k : ℕ) (ds : List Char) (c : Char)
    (r : List Char) (hlen : ds.length < k) (hc : c.isDigit = false) :
    takeDigitsExact k (ds ++ c :: r) = none := by
  unfold takeDigitsExact
  rw [if_neg]
  rintro ⟨_, hall⟩
  have hmem : c ∈ (ds ++ c :: r).take k := by
    have hk : k = ds.length + (k - ds.length) := by omega
    rw [hk, List.take_append]
    have hc2 : c ∈ List.take (k - ds.length) (c :: r) := by
      rcases hkd : k - ds.length with _ | k2
      · omega
      · simp [List.take]
    exact List.mem_append.mpr (Or.inr hc2)
  have hcd := List.all_eq_true.mp hall c hmem
  rw [hc] at hcd
  exact absurd hcd (by simp)

theorem moneyDot_digits (acc : List Char) (d1 d2 : Char) (post : List Char)
    (h1 : d1.isDigit = true) (h2 : d2.isDigit = true) :
    moneyDot acc ('.' :: d1 :: d2 :: post) = some (acc ++ ['.', d1, d2]) := by
  unfold moneyDot
  dsimp only
  rw [if_pos ⟨rfl, h1, h2⟩]

theorem moneyGroupsDot_spec (d1 d2 : Char)
    (h1 : d1.isDigit = true) (h2 : d2.isDigit = true) :
    ∀ (gs : List (List Char)) (acc post : List Char),
      (∀ g ∈ gs, g.length = 3 ∧ ∀ c ∈ g, c.isDigit = true) →
      moneyGroupsDot acc (groupsChars gs ++ '.' :: d1 :: d2 :: post) =
        some (acc ++ groupsChars gs ++ ['.', d1, d2])
  | [], acc, post, _ => by
    show moneyGroupsDot acc ('.' :: d1 :: d2 :: post) = _
    have hdot := moneyDot_digits acc d1 d2 post h1 h2
    rcases post with _ | ⟨p, ps⟩
    · unfold moneyGroupsDot
      simpa [groupsChars] using hdot
    · unfold moneyGroupsDot
      rw [if_neg (by
        rintro ⟨hd2, _⟩
        exact absurd hd2 (by decide))]
      simpa [groupsChars] using hdot
  | g :: gs, acc, post, hgs => by
    rcases hgs g (by simp) with ⟨hglen, hgdig⟩
    rcases g with _ | ⟨a, g1⟩
    · exact absurd hglen (by simp)
    rcases g1 with _ | ⟨b, g2⟩
    · exact absurd hglen (by simp)
    rcases g2 with _ | ⟨c, g3⟩
    · exact absurd hglen (by simp)
    rcases g3 with _ | ⟨d, g4⟩
    swap
    · exact absurd hglen (by simp)
    have ha : a.isDigit = true := hgdig a (by simp)
    have hb : b.isDigit = true := hgdig b (by simp)
    have hc : c.isDigit = true := hgdig c (by simp)
    have hrest := moneyGroupsDot_spec d1 d2 h1 h2 gs (acc ++ [',', a, b, c]) post
      (fun g hg => hgs g (by simp [hg]))
    have hshape : groupsChars ([a, b, c] :: gs) ++ '.' :: d1 :: d2 :: post =
        ',' :: a :: b :: c :: (groupsChars gs ++ '.' :: d1 :: d2 :: post) := by
      simp [groupsChars]
    rw [hshape]
    unfold moneyGroupsDot
    rw [if_pos ⟨rfl, ha, hb, hc⟩, hrest]
    show some _ = _
    simp [groupsChars]

theorem moneyAlt1_spec (g0 : List Char) (gs : List (List Char))
    (d1 d2 : Char) (post : List Char)
    (hlen1 : 1 ≤ g0.length) (hlen3 : g0.length ≤ 3)
    (hg0 : ∀ c ∈ g0, c.isDigit = true)
    (hgs : ∀ g ∈ gs, g.length = 3 ∧ ∀ c ∈ g, c.isDigit = true)
    (h1 : d1.isDigit = true) (h2 : d2.isDigit = true) :
    moneyAlt1 (g0 ++ (groupsChars gs ++ '.' :: d1 :: d2 :: post)) =
      some (g0 ++ (groupsChars gs ++ ['.', d1, d2])) := by
  obtain ⟨c0, r0, hR, hc0⟩ : ∃ c0 r0,
      groupsChars gs ++ '.' :: d1 :: d2 :: post = c0 :: r0 ∧
        c0.isDigit = false := by
    rcases gs with _ | ⟨g, gs2⟩
    · exact ⟨'.', d1 :: d2 :: post, by simp [groupsChars], by decide⟩
    · exact ⟨',', g ++ (groupsChars gs2 ++ '.' :: d1 :: d2 :: post),
        by simp [groupsChars], by decide⟩
  have hmain : moneyGroupsDot g0 (groupsChars gs ++ '.' :: d1 :: d2 :: post) =
      some (g0 ++ (groupsChars gs ++ ['.', d1, d2])) := by
    have hg := moneyGroupsDot_spec d1 d2 h1 h2 gs g0 post hgs
    simpa [List.append_assoc] using hg
  unfold moneyAlt1
  have hcases : g0.length = 1 ∨ g0.length = 2 ∨ g0.length = 3 := by omega
  rcases hcases with hl | hl | hl
  · rw [hR]
    rw [takeDigitsExact_fail 3 g0 c0 r0 (by omega) hc0]
    rw [takeDigitsExact_fail 2 g0 c0 r0 (by omega) hc0]
    rw [takeDigitsExact_exact 1 g0 (c0 :: r0) hl hg0]
    rw [← hR]
    simp [Option.orElse, hmain]
  · rw [hR]
    rw [takeDigitsExact_fail 3 g0 c0 r0 (by omega) hc0]
    rw [takeDigitsExact_exact 2 g0 (c0 :: r0) hl hg0]
    rw [← hR]
    simp [Option.orElse, hmain]
  · rw [hR]
    rw [takeDigitsExact_exact 3 g0 (c0 :: r0) hl hg0]
    rw [← hR]
    simp [Option.orElse, hmain]

theorem moneyAlt1_none (c : Char) (r : List Char) (hc : c.isDigit = false) :
    moneyAlt1 (c :: r) = none := by
  unfold moneyAlt1
  have h3 : takeDigitsExact 3 (c :: r) = none := by
    simpa using takeDigitsExact_fail 3 [] c r (by simp) hc
  have h2 : takeDigitsExact 2 (c :: r) = none := by
    simpa using takeDigitsExact_fail 2 [] c r (by simp) hc
  have h1 : takeDigitsExact 1 (c :: r) = none := by
    simpa using takeDigitsExact_fail 1 [] c r (by simp) hc
  rw [h3, h2, h1]
  rfl

theorem moneyAlt2_none (c : Char) (r : List Char) (hc : c.isDigit = false) :
    moneyAlt2 (c :: r) = none := by
  unfold moneyAlt2
  have ht : (c :: r).takeWhile Char.isDigit = [] := by
    simp [List.takeWhile, hc]
  rw [ht]
  rfl

theorem moneyFirstMatch_cons (c : Char) (l : List Char) :
    moneyFirstMatch (c :: l) =
      ((moneyAlt1 (c :: l) <|> moneyAlt2 (c :: l)) <|> moneyFirstMatch l) :=
  rfl

theorem moneyFirstMatch_skip :
    ∀ (pre rest : List Char), (∀ c ∈ pre, c.isDigit = false) →
      moneyFirstMatch (pre ++ rest) = moneyFirstMatch rest
  | [], rest, _ => rfl
  | c :: pre, rest, hpre => by
    have hc : c.isDigit = false := hpre c (by simp)
    have hrec := moneyFirstMatch_skip pre rest (fun d hd => hpre d (by simp [hd]))
    calc moneyFirstMatch (c :: (pre ++ rest))
        = ((moneyAlt1 (c :: (pre ++ rest)) <|> moneyAlt2 (c :: (pre ++ rest))) <|>
            moneyFirstMatch (pre ++ rest)) := moneyFirstMatch_cons c (pre ++ rest)
      _ = moneyFirstMatch (pre ++ rest) := by
          rw [moneyAlt1_none c _ hc, moneyAlt2_none c _ hc]
          rfl
      _ = moneyFirstMatch rest := hrec

theorem moneyFirstMatch_none :
    ∀ cs : List Char, (∀ c ∈ cs, c.isDigit = false) →
      moneyFirstMatch cs = none
  | [], _ => rfl
  | c :: rest, h => by
    have hc : c.isDigit = false := h c (by simp)
    have hrec := moneyFirstMatch_none rest (fun d hd => h d (by simp [hd]))
    calc moneyFirstMatch (c :: rest)
        = ((moneyAlt1 (c :: rest) <|> moneyAlt2 (c :: rest)) <|>
            moneyFirstMatch rest) := moneyFirstMatch_cons c rest
      _ = moneyFirstMatch rest := by
          rw [moneyAlt1_none c _ hc, moneyAlt2_none c _ hc]
          rfl
      _ = none := hrec

theorem takeWhile_all_append {p : Char → Bool} :
    ∀ (ds : List Char) (c' : Char) (r : List Char),
      (∀ c ∈ ds, p c = true) → p c' = false →
      (ds ++ c' :: r).takeWhile p = ds ∧ (ds ++ c' :: r).dropWhile p = c' :: r
  | [], c', r, _, hc' => by
    constructor
    · simp [List.takeWhile, hc']
    · simp [List.dropWhile, hc']
  | d :: ds, c', r, hds, hc' => by
    have hd : p d = true := hds d (by simp)
    have ih := takeWhile_all_append ds c' r (fun c hc => hds c (by simp [hc])) hc'
    constructor
    · rw [List.cons_append, List.takeWhile_cons_of_pos hd, ih.1]
    · rw [List.cons_append, List.dropWhile_cons_of_pos hd]
      exact ih.2

theorem filter_ne_comma_of_digits (ds : List Char)
    (h : ∀ c ∈ ds, c.isDigit = true) :
    ds.filter (fun c => c ≠ ',') = ds := by
  rw [List.filter_eq_self]
  intro c hc
  simp [(digit_ne c (h c hc)).1]

theorem filter_groupsChars (gs : List (List Char))
    (hgs : ∀ g ∈ gs, g.length = 3 ∧ ∀ c ∈ g, c.isDigit = true) :
    (groupsChars gs).filter (fun c => c ≠ ',') = gs.flatten := by
  induction gs with
  | nil => rfl
  | cons g gs ih =>
    have hshape : groupsChars (g :: gs) = ',' :: g ++ groupsChars gs := by
      simp [groupsChars]
    rw [hshape, List.cons_append,
      List.filter_cons_of_neg (by simp),
      List.filter_append, filter_ne_comma_of_digits g (hgs g (by simp)).2,
      ih (fun g2 hg2 => hgs g2 (by simp [hg2]))]
    simp [List.flatten]

theorem jsParseFloat_digits (ds : List Char) (d1 d2 : Char)
    (hne : ds ≠ []) (hds : ∀ c ∈ ds, c.isDigit = true)
    (h1 : d1.isDigit = true) (h2 : d2.isDigit = true) :
    jsParseFloat ⟨ds ++ '.' :: [d1, d2]⟩ =
      some ((digitsToNat ds : ℚ) + (digitsToNat [d1, d2] : ℚ) / 100) := by
  rcases ds with _ | ⟨e, ds2⟩
  · exact absurd rfl hne
  have he : e.isDigit = true := hds e (by simp)
  have htrim : jsTrimList ((e :: ds2) ++ '.' :: [d1, d2]) =
      (e :: ds2) ++ '.' :: [d1, d2] := by
    apply jsTrimList_eq_self
    · intro c hc
      simp only [List.cons_append, List.head?_cons] at hc
      rcases Option.some_injective _ hc with rfl
      exact digit_not_ws e he
    · intro c hc
      rw [List.getLast?_append_of_ne_nil _ (by simp)] at hc
      have hlast : ('.' :: [d1, d2]).getLast? = some d2 := rfl
      rw [hlast] at hc
      rcases Option.some_injective _ hc with rfl
      exact digit_not_ws d2 h2
  have hdec : parseDecMantissa ((e :: ds2) ++ '.' :: [d1, d2]) =
      some ((digitsToNat (e :: ds2) : ℚ) +
        (digitsToNat [d1, d2] : ℚ) / (10 : ℚ) ^ (2 : ℕ), []) := by
    unfold parseDecMantissa
    have hta := takeWhile_all_append (e :: ds2) '.' [d1, d2] hds (by decide)
    rw [hta.1, hta.2]
    dsimp only
    rw [if_pos rfl]
    have htb : ([d1, d2] : List Char).takeWhile Char.isDigit = [d1, d2] := by
      rw [List.takeWhile_eq_self_iff]
      intro c hc
      rcases List.mem_cons.mp hc with rfl | hc2
      · exact h1
      · rcases List.mem_cons.mp hc2 with rfl | hc3
        · exact h2
        · exact absurd hc3 (by simp)
    have htb2 : ([d1, d2] : List Char).dropWhile Char.isDigit = [] := by
      rw [List.dropWhile_cons_of_pos h1, List.dropWhile_cons_of_pos h2]
      rfl
    rw [htb, htb2]
    rw [if_neg (by simp)]
    norm_num
  unfold jsParseFloat
  have hdata : (⟨(e :: ds2) ++ '.' :: [d1, d2]⟩ : String).data =
      (e :: ds2) ++ '.' :: [d1, d2] := rfl
  rw [show jsTrim ⟨(e :: ds2) ++ '.' :: [d1, d2]⟩ =
      ⟨jsTrimList ((e :: ds2) ++ '.' :: [d1, d2])⟩ from rfl]
  rw [show (⟨jsTrimList ((e :: ds2) ++ '.' :: [d1, d2])⟩ : String).data =
      jsTrimList ((e :: ds2) ++ '.' :: [d1, d2]) from rfl]
  rw [htrim]
  dsimp only [List.cons_append]
  rw [if_neg (by simpa using (digit_ne e he).2.2.1)]
  rw [if_neg (by simpa using (digit_ne e he).2.2.2.1)]
  have hdec2 := hdec
  rw [List.cons_append] at hdec2
  rw [hdec2]
  norm_num

/-- C4.  Parsing a currency-formatted string — any digit-free prefix (the
currency symbol), a well-grouped integer part, exactly two decimals, any
suffix — strips the symbol and the thousands separators and returns the
full numeric value; and parsing any string containing no digit returns
`null`, never zero. -/
theorem parseMoney_currency_and_null :
    (∀ (pre g0 : List Char) (gs : List (List Char)) (d1 d2 : Char)
        (post : List Char),
      (∀ c ∈ pre, c.isDigit = false) →
      1 ≤ g0.length → g0.length ≤ 3 →
      (∀ c ∈ g0, c.isDigit = true) →
      (∀ g ∈ gs, g.length = 3 ∧ ∀ c ∈ g, c.isDigit = true) →
      d1.isDigit = true → d2.isDigit = true →
      parseMoney ⟨pre ++ (g0 ++ (groupsChars gs ++ '.' :: d1 :: d2 :: post))⟩ =
        some ((digitsToNat (g0 ++ gs.flatten) : ℚ) +
          (digitsToNat [d1, d2] : ℚ) / 100)) ∧
    (∀ s : String, (∀ c ∈ s.data, c.isDigit = false) → parseMoney s = none) := by
  constructor
  · intro pre g0 gs d1 d2 post hpre hlen1 hlen3 hg0 hgs h1 h2
    rcases g0 with _ | ⟨e, g0t⟩
    · exact absurd hlen1 (by simp)
    have hne : (⟨pre ++ ((e :: g0t) ++ (groupsChars gs ++ '.' :: d1 :: d2 :: post))⟩ : String) ≠ "" := by
      intro he
      have hd := congrArg String.data he
      simp at hd
    unfold parseMoney
    rw [if_neg hne]
    have halt1 := moneyAlt1_spec (e :: g0t) gs d1 d2 post hlen1 hlen3 hg0 hgs h1 h2
    have hmatch : moneyFirstMatch
        (⟨pre ++ ((e :: g0t) ++ (groupsChars gs ++ '.' :: d1 :: d2 :: post))⟩ : String).data =
        some ((e :: g0t) ++ (groupsChars gs ++ ['.', d1, d2])) := by
      have hdata : (⟨pre ++ ((e :: g0t) ++ (groupsChars gs ++ '.' :: d1 :: d2 :: post))⟩ : String).data =
          pre ++ ((e :: g0t) ++ (groupsChars gs ++ '.' :: d1 :: d2 :: post)) := rfl
      rw [hdata, moneyFirstMatch_skip pre _ hpre]
      rw [show (e :: g0t) ++ (groupsChars gs ++ '.' :: d1 :: d2 :: post) =
          e :: (g0t ++ (groupsChars gs ++ '.' :: d1 :: d2 :: post)) from rfl]
      rw [moneyFirstMatch_cons]
      rw [show e :: (g0t ++ (groupsChars gs ++ '.' :: d1 :: d2 :: post)) =
          (e :: g0t) ++ (groupsChars gs ++ '.' :: d1 :: d2 :: post) from rfl]
      rw [halt1]
      rfl
    rw [hmatch]
    dsimp only
    have hfilter : ((e :: g0t) ++ (groupsChars gs ++ ['.', d1, d2])).filter
        (fun c => c ≠ ',') =
        ((e :: g0t) ++ gs.flatten) ++ '.' :: [d1, d2] := by
      rw [List.filter_append, List.filter_append,
        filter_ne_comma_of_digits (e :: g0t) hg0, filter_groupsChars gs hgs]
      have hdotpart : (['.', d1, d2] : List Char).filter (fun c => c ≠ ',') =
          ['.', d1, d2] := by
        rw [List.filter_eq_self]
        intro c hc
        simp only [List.mem_cons, List.not_mem_nil, or_false] at hc
        have hcne : c ≠ ',' := by
          rcases hc with rfl | rfl | rfl
          · decide
          · exact (digit_ne _ h1).1
          · exact (digit_ne _ h2).1
        simpa using hcne
      rw [hdotpart, List.append_assoc]
    rw [hfilter]
    exact jsParseFloat_digits ((e :: g0t) ++ gs.flatten) d1 d2
      (by simp) (by
        intro c hc
        rcases List.mem_append.mp hc with hc2 | hc2
        · exact hg0 c hc2
        · rcases List.mem_flatten.mp hc2 with ⟨g, hg, hcg⟩
          exact (hgs g hg).2 c hcg) h1 h2
  · intro s hs
    unfold parseMoney
    by_cases he : s = ""
    · rw [if_pos he]
    · rw [if_neg he, moneyFirstMatch_none s.data hs]

unseal Rat.add Rat.mul Rat.inv Rat.sub in
/-- Witness for C4: `"$1,234.56"` parses to `1234.56`. -/
theorem parseMoney_currency_and_null_witness :
    parseMoney ⟨['$'] ++ (['1'] ++ (groupsChars [['2', '3', '4']] ++
        '.' :: '5' :: '6' :: []))⟩ =
      some ((digitsToNat (['1'] ++ ([['2', '3', '4']] : List (List Char)).flatten) : ℚ) +
        (digitsToNat ['5', '6'] : ℚ) / 100) :=
  parseMoney_currency_and_null.1 ['$'] ['1'] [['2', '3', '4']] '5' '6' []
    (by decide) (by decide) (by decide) (by decide) (by decide)
    (by decide) (by decide)
